import Mathlib

/-!
Verification development for the transaction graph construction engine
(`buildGraph` in `src/graph/src/graphData.ts`).

The embedding models JavaScript strings as lists of characters, JS `Map`
(insertion-ordered, set-replaces-in-place) as association lists, JS `Set`
as insertion-ordered duplicate-free lists, and the in-place
`transactions.sort` mutation as an explicit post-state
(`buildGraphPost`).  Numeric amounts and timestamps are naturals; the
`average_amount` floating-point division is modelled as exact rational
division; the `toLocaleString` date rendering of the first/last timestamp
is modelled by the timestamp itself (the conversion is injective display
formatting and plays no role in any property considered here).
-/

set_option maxHeartbeats 1000000

/-- JavaScript strings, modelled as lists of characters. -/
abbrev Str := List Char

/-- Model of `String.prototype.toLowerCase` (ASCII-faithful). -/
def lowerStr (s : Str) : Str := s.map Char.toLower

/-- Lexicographic comparison of strings by character code, as used by the
default comparator of `Array.prototype.sort` on strings. -/
def strLt : Str → Str → Bool
  | [], [] => false
  | [], _ :: _ => true
  | _ :: _, [] => false
  | a :: as, b :: bs => if a < b then true else if b < a then false else strLt as bs

/-- The separator character used by the pair keys of the connection map. -/
def dashChar : Char := ('-')

/-- Model of `key.split("-")`. -/
def splitOnDash : Str → List Str
  | [] => [[]]
  | c :: rest =>
    if c = dashChar then [] :: splitOnDash rest
    else
      match splitOnDash rest with
      | [] => [[c]]
      | s :: ss => (c :: s) :: ss

/-- JS truthiness of a value that is either a string or `undefined`:
`undefined` and the empty string are falsy. -/
def truthyS : Option Str → Bool
  | none => false
  | some s => !s.isEmpty

/-- Lookup in an insertion-ordered JS `Map` modelled as an association list. -/
def mapGet {β : Type} : List (Str × β) → Str → Option β
  | [], _ => none
  | (k', v) :: rest, k => if k' = k then some v else mapGet rest k

/-- `Map.prototype.set`: replaces the value in place if the key is present,
otherwise appends a new entry (insertion order preserved). -/
def mapSet {β : Type} : List (Str × β) → Str → β → List (Str × β)
  | [], k, v => [(k, v)]
  | (k', v') :: rest, k, v =>
    if k' = k then (k, v) :: rest else (k', v') :: mapSet rest k v

/-- `Map.prototype.has`. -/
def mapHas {β : Type} (m : List (Str × β)) (k : Str) : Bool :=
  (mapGet m k).isSome

/-- `Set.prototype.add` on an insertion-ordered JS `Set`. -/
def setAdd (s : List Str) (x : Str) : List Str :=
  if x ∈ s then s else s ++ [x]

/-- The directions carried by graph links (`Direction` in `types.ts`,
used as `Direction.SEND` / `Direction.RECEIVE` / `Direction.BOTH`). -/
inductive Direction : Type where
  | SEND : Direction
  | RECEIVE : Direction
  | BOTH : Direction
deriving DecidableEq

/-- A ledger transaction as consumed by `buildGraph`: fields `op_type`,
`from`, `to`, `amount`, `timestamp` (here `from` and `to` are named `frId` and `toId`). -/
structure Transaction : Type where
  op_type : Str
  frId : Str
  toId : Str
  amount : Nat
  timestamp : Nat
deriving DecidableEq

instance : Inhabited Transaction := ⟨⟨[], [], [], 0, 0⟩⟩

/-- An `AccountData` record: `account`, `name`, `ty` (category string),
`extra_accounts` (alias ids), `transactions`. -/
structure AccountData : Type where
  account : Str
  name : Str
  ty : Str
  extra_accounts : List Str
  transactions : List Transaction
deriving DecidableEq

/-- The statistics object assigned to `extra_info` of a node when the
record has at least one transaction (empty object otherwise, modelled
as `Option.none` at the use site). -/
structure ExtraInfo : Type where
  average_amount : ℚ
  tx_count : Nat
  start_ts : Nat
  end_ts : Nat
  extra_accounts : List Str
deriving DecidableEq

/-- An output graph node. -/
structure GraphNode : Type where
  id : Str
  label : Str
  group : Str
  extra_info : Option ExtraInfo
deriving DecidableEq

/-- An output graph link; `connectors` is absent (`none`) unless the
connector pass attached a connector list. -/
structure GraphLink : Type where
  source : Str
  target : Str
  direction : Direction
  connectors : Option (List Str)
deriving DecidableEq

/-- The value returned by `buildGraph`. -/
structure BuiltGraph : Type where
  nodes : List GraphNode
  links : List GraphLink
deriving DecidableEq

/-- Category and operation literals compared against in the source. -/
def tyDefi : Str := ("defi").toList

/-- The `"cex"` category literal. -/
def tyCex : Str := ("cex").toList

/-- The `"foundation"` category literal. -/
def tyFoundation : Str := ("foundation").toList

/-- The `"spammer"` category literal. -/
def tySpammer : Str := ("spammer").toList

/-- The `"Transfer"` operation literal. -/
def opTransfer : Str := ("Transfer").toList

/-- Stable insertion of a transaction into a timestamp-ascending list:
an existing element stays in front exactly when its timestamp is
strictly smaller, which reproduces the result of the stable
`sort((a, b) => a.timestamp - b.timestamp)`. -/
def insertTx (t : Transaction) : List Transaction → List Transaction
  | [] => [t]
  | u :: us => if u.timestamp < t.timestamp then u :: insertTx t us else t :: u :: us

/-- Stable sort of a transaction list by ascending timestamp, the result
of `transactions.sort((a, b) => a.timestamp - b.timestamp)`. -/
def sortTx : List Transaction → List Transaction
  | [] => []
  | t :: ts => insertTx t (sortTx ts)

/-- The in-place sort performed on a record while building its node
(only non-defi records with a nonempty transaction list are touched). -/
def sortAccount (acc : AccountData) : AccountData :=
  if lowerStr acc.ty ≠ tyDefi ∧ acc.transactions ≠ [] then
    { acc with transactions := sortTx acc.transactions }
  else acc

/-- The state of the input records after `buildGraph` returns: the
node-projection loop sorted each non-defi record's nonempty
transaction list in place. -/
def buildGraphPost (data : List AccountData) : List AccountData :=
  data.map sortAccount

/-- The `allMap` of the source: every record keyed by its account id.
It is built before the node loop, but its values are the (mutated)
records, so it is modelled over the post-state. -/
def allMapOf (data : List AccountData) : List (Str × AccountData) :=
  (buildGraphPost data).foldl (fun m acc => mapSet m acc.account acc) []

/-- One record's contribution to `accountToMain`: the account id maps to
itself, then every extra account maps to the record's account id. -/
def atmStep (m : List (Str × Str)) (acc : AccountData) : List (Str × Str) :=
  acc.extra_accounts.foldl (fun m2 extra => mapSet m2 extra acc.account)
    (mapSet m acc.account acc.account)

/-- The `accountToMain` map: each account id maps to itself, each extra
account maps to the owning record's account id. -/
def buildAccountToMain (data : List AccountData) : List (Str × Str) :=
  data.foldl atmStep []

/-- The last element of a list, with a default for the empty list
(`newTxs[newTxs.length - 1]` on a nonempty list). -/
def lastD : List Transaction → Transaction → Transaction
  | [], d => d
  | t :: ts, _ => lastD ts t

/-- The sum computed by `reduce((sum, tx) => sum + tx.amount, 0)`. -/
def sumAmounts (txs : List Transaction) : Nat :=
  txs.foldl (fun s t => s + t.amount) 0

/-- The `extra_info` computed for a record's node: empty when there are
no transactions, otherwise statistics over the timestamp-sorted list
of all of the record's transactions. -/
def mkExtraInfo (acc : AccountData) : Option ExtraInfo :=
  if acc.transactions = [] then none
  else
    let newTxs := sortTx acc.transactions
    some
      { average_amount :=
          ((sumAmounts newTxs : ℚ) / (newTxs.length : ℚ)) / (100000000 : ℚ)
        tx_count := newTxs.length
        start_ts := newTxs.headI.timestamp
        end_ts := (lastD newTxs default).timestamp
        extra_accounts := acc.extra_accounts }

/-- One record's contribution to the `nodeMap`: a node is set for every
record whose lowercased category is not `"defi"`. -/
def nmStep (m : List (Str × GraphNode)) (acc : AccountData) : List (Str × GraphNode) :=
  if lowerStr acc.ty ≠ tyDefi then
    mapSet m acc.account
      { id := acc.account
        label := acc.name
        group := acc.ty
        extra_info := mkExtraInfo acc }
  else m

/-- The `nodeMap`: one node per record whose lowercased category is not
`"defi"`, keyed by account id. -/
def buildNodeMap (data : List AccountData) : List (Str × GraphNode) :=
  data.foldl nmStep []

/-- `Array.from(nodeMap.values())`. -/
def buildNodes (data : List AccountData) : List GraphNode :=
  (buildNodeMap data).map Prod.snd

/-- Replace the first link satisfying `p` by its image under `f`,
modelling mutation of the link object returned by `links.find`. -/
def updateFirst (p : GraphLink → Bool) (f : GraphLink → GraphLink) :
    List GraphLink → List GraphLink
  | [] => []
  | l :: ls => if p l then f l :: ls else l :: updateFirst p f ls

/-- The predicate used by `links.find` for the unordered pair `{a, b}`. -/
def pairMatch (a b : Str) (l : GraphLink) : Bool :=
  decide ((l.source = a ∧ l.target = b) ∨ (l.source = b ∧ l.target = a))

/-- `links.find(...)` for the unordered pair `{a, b}`. -/
def findLink (links : List GraphLink) (a b : Str) : Option GraphLink :=
  links.find? (pairMatch a b)

/-- The direction-merge applied when a transaction hits an existing edge:
the direction is promoted to `BOTH` exactly when it differs from the
recorded one. -/
def mergeDirection (e d : Direction) : Direction :=
  if e ≠ d then Direction.BOTH else e

/-- State threaded through the direct-edge pass: the visible `links` and
the `hiddenLinksMap` (which the remainder of the function never reads). -/
structure LinkState : Type where
  links : List GraphLink
  hidden : List (Str × List GraphLink)
deriving DecidableEq

/-- `hiddenLinksMap` update: ensure the key has a bucket, push the link. -/
def hiddenPush (m : List (Str × List GraphLink)) (k : Str) (l : GraphLink) :
    List (Str × List GraphLink) :=
  match mapGet m k with
  | none => mapSet m k [l]
  | some ls => mapSet m k (ls ++ [l])

/-- The hidden-bucket update performed when either endpoint of a
transaction is a defi account: the link is pushed under each non-defi
endpoint that has a visible node. -/
def hiddenDefi (nodeM : List (Str × GraphNode))
    (hidden : List (Str × List GraphLink)) (fromMain toMain : Str)
    (fromNode toNode : AccountData) (direction : Direction) :
    List (Str × List GraphLink) :=
  let link : GraphLink :=
    { source := fromMain, target := toMain, direction := direction, connectors := none }
  let h1 :=
    if lowerStr fromNode.ty ≠ tyDefi ∧ mapHas nodeM fromMain then
      hiddenPush hidden fromMain link
    else hidden
  if lowerStr toNode.ty ≠ tyDefi ∧ mapHas nodeM toMain then hiddenPush h1 toMain link
  else h1

/-- The filtering and upsert logic of the direct pass once both ends
have been resolved to records (`graphData.ts` lines 74-114). -/
def directCore (nodeM : List (Str × GraphNode)) (st : LinkState)
    (fromMain toMain : Str) (fromNode toNode : AccountData)
    (direction : Direction) (amt : Nat) : LinkState :=
  if lowerStr fromNode.ty = tyDefi ∨ lowerStr toNode.ty = tyDefi then
    { st with
      hidden := hiddenDefi nodeM st.hidden fromMain toMain fromNode toNode direction }
  else if (lowerStr fromNode.ty = tyCex ∧ lowerStr toNode.ty = tyCex) ∨
      (lowerStr fromNode.ty = tyFoundation ∧ lowerStr toNode.ty = tyFoundation) then st
  else if lowerStr fromNode.ty = tySpammer ∧ amt < 10000000 then st
  else
    match findLink st.links fromMain toMain with
    | none =>
      { st with
        links := st.links ++
          [{ source := fromMain, target := toMain, direction := direction,
             connectors := none }] }
    | some existing =>
      if existing.direction ≠ direction then
        { st with
          links :=
            updateFirst (pairMatch fromMain toMain)
              (fun l => { l with direction := mergeDirection l.direction direction })
              st.links }
      else st

/-- One transaction of the direct-edge pass (`graphData.ts` lines 60-116),
processed while iterating the record `acc`. -/
def directStep (allM : List (Str × AccountData)) (aTM : List (Str × Str))
    (nodeM : List (Str × GraphNode)) (acc : AccountData)
    (st : LinkState) (tx : Transaction) : LinkState :=
  if tx.op_type ≠ opTransfer then st else
  match mapGet aTM tx.frId, mapGet aTM tx.toId with
  | some fromMain, some toMain =>
    if fromMain = [] ∨ toMain = [] ∨ fromMain = toMain then st else
    match mapGet allM fromMain, mapGet allM toMain with
    | some fromNode, some toNode =>
      directCore nodeM st fromMain toMain fromNode toNode
        (if fromMain = acc.account then Direction.SEND else Direction.RECEIVE)
        tx.amount
    | _, _ => st
  | _, _ => st

/-- The whole direct-edge pass: iterate `allMap` in insertion order, and
each record's transactions in list order. -/
def runDirect (allM : List (Str × AccountData)) (aTM : List (Str × Str))
    (nodeM : List (Str × GraphNode)) : LinkState :=
  allM.foldl
    (fun st e => e.2.transactions.foldl (directStep allM aTM nodeM e.2) st)
    ⟨[], []⟩

/-- `connectorNodeMap` update: ensure the key has a set, add the main. -/
def cnmAdd (m : List (Str × List Str)) (k : Str) (v : Str) : List (Str × List Str) :=
  match mapGet m k with
  | none => mapSet m k (setAdd [] v)
  | some s => mapSet m k (setAdd s v)

/-- The body shared by the two connector branches: skip if the known
main is a spammer, skip if the external end is a tracked spammer and
the amount is at most 1,000,000, otherwise record the pairing. -/
def branchAdd (allM : List (Str × AccountData)) (st : List (Str × List Str))
    (mainId extId : Str) (amt : Nat) : List (Str × List Str) :=
  let ok1 :=
    match mapGet allM mainId with
    | some mainAcc => decide (lowerStr mainAcc.ty ≠ tySpammer)
    | none => true
  let ok2 :=
    match mapGet allM extId with
    | some externalAcc =>
      decide (¬ (lowerStr externalAcc.ty = tySpammer ∧ amt ≤ 1000000))
    | none => true
  if ok1 && ok2 then cnmAdd st extId mainId else st

/-- One transaction of the connector-detection pass (`graphData.ts`
lines 122-183). -/
def connectorStep (allM : List (Str × AccountData)) (aTM : List (Str × Str))
    (nodeM : List (Str × GraphNode)) (st : List (Str × List Str))
    (tx : Transaction) : List (Str × List Str) :=
  if tx.op_type ≠ opTransfer then st else
  let fromMainO := mapGet aTM tx.frId
  let toMainO := mapGet aTM tx.toId
  if truthyS fromMainO ∧ truthyS toMainO ∧ fromMainO = toMainO then st else
  let st1 :=
    match fromMainO with
    | some fromMain =>
      if fromMain ≠ [] ∧ mapHas nodeM fromMain ∧ ¬ truthyS toMainO then
        branchAdd allM st fromMain tx.toId tx.amount
      else st
    | none => st
  match toMainO with
  | some toMain =>
    if toMain ≠ [] ∧ mapHas nodeM toMain ∧ ¬ truthyS fromMainO then
      branchAdd allM st1 toMain tx.frId tx.amount
    else st1
  | none => st1

/-- The whole connector-detection pass over `allMap`. -/
def runConnector (allM : List (Str × AccountData)) (aTM : List (Str × Str))
    (nodeM : List (Str × GraphNode)) : List (Str × List Str) :=
  allM.foldl
    (fun st e => e.2.transactions.foldl (connectorStep allM aTM nodeM) st)
    []

/-- The stable pair key `[a, b].sort().join("-")`. -/
def pairKey (a b : Str) : Str :=
  if strLt b a then b ++ dashChar :: a else a ++ dashChar :: b

/-- `connectionMap` update for one pair key. -/
def cmPush (cm : List (Str × List Str)) (k : Str) (v : Str) : List (Str × List Str) :=
  match mapGet cm k with
  | none => mapSet cm k [v]
  | some l => mapSet cm k (l ++ [v])

/-- The nested `for i / for j` loops recording every unordered pair of
mains connected through `externalId`. -/
def addPairs (externalId : Str) (cm : List (Str × List Str)) :
    List Str → List (Str × List Str)
  | [] => cm
  | m :: rest =>
    addPairs externalId
      (rest.foldl (fun cm2 m2 => cmPush cm2 (pairKey m m2) externalId) cm) rest

/-- Build `connectionMap` from `connectorNodeMap` (`graphData.ts`
lines 188-214). -/
def buildConnectionMap (allM : List (Str × AccountData))
    (cnm : List (Str × List Str)) : List (Str × List Str) :=
  cnm.foldl
    (fun cm e =>
      if e.2.length ≤ 1 then cm
      else
        match mapGet allM e.1 with
        | some acc => if lowerStr acc.ty = tyDefi then cm else addPairs e.1 cm e.2
        | none => addPairs e.1 cm e.2)
    []

/-- The `validExternalIds` filter: connectors that are tracked spammer
accounts are dropped. -/
def validIds (allM : List (Str × AccountData)) (ids : List Str) : List Str :=
  ids.filter (fun ext =>
    match mapGet allM ext with
    | some acc => decide (lowerStr acc.ty ≠ tySpammer)
    | none => true)

/-- Mutation of an existing link when connector evidence is attached:
append to the present connector list, or install the list. -/
def connUpdate (valid : List Str) (l : GraphLink) : GraphLink :=
  { l with
    connectors :=
      match l.connectors with
      | some cs => some (cs ++ valid)
      | none => some valid }

/-- The category check and upsert of the connector-link pass once the
pair key has been split back into the two mains. -/
def connCore (allM : List (Str × AccountData)) (links : List GraphLink)
    (mainA mainB : Str) (valid : List Str) : List GraphLink :=
  if truthyS ((mapGet allM mainA).map (fun a => lowerStr a.ty)) ∧
      truthyS ((mapGet allM mainB).map (fun a => lowerStr a.ty)) ∧
      (((mapGet allM mainA).map (fun a => lowerStr a.ty) = some tyCex ∧
        (mapGet allM mainB).map (fun a => lowerStr a.ty) = some tyCex) ∨
       ((mapGet allM mainA).map (fun a => lowerStr a.ty) = some tyFoundation ∧
        (mapGet allM mainB).map (fun a => lowerStr a.ty) = some tyFoundation)) then
    links
  else
    match findLink links mainA mainB with
    | some _ =>
      updateFirst (pairMatch mainA mainB) (connUpdate valid) links
    | none =>
      links ++
        [{ source := mainA, target := mainB, direction := Direction.SEND,
           connectors := some valid }]

/-- One entry of the final connector-link pass (`graphData.ts`
lines 218-259). -/
def connLinkStep (allM : List (Str × AccountData)) (links : List GraphLink)
    (e : Str × List Str) : List GraphLink :=
  if validIds allM e.2 = [] then links
  else
    connCore allM links ((splitOnDash e.1).getD 0 [])
      ((splitOnDash e.1).getD 1 []) (validIds allM e.2)

/-- The complete link set produced by `buildGraph`. -/
def buildLinks (data : List AccountData) : List GraphLink :=
  let allM := allMapOf data
  let aTM := buildAccountToMain data
  let nodeM := buildNodeMap data
  let direct := runDirect allM aTM nodeM
  let cnm := runConnector allM aTM nodeM
  let cm := buildConnectionMap allM cnm
  cm.foldl (connLinkStep allM) direct.links

/-- The graph construction engine, `buildGraph` of `graphData.ts`. -/
def buildGraph (data : List AccountData) : BuiltGraph :=
  { nodes := buildNodes data, links := buildLinks data }

/-! ### Basic lemmas about the JS `Map` model -/

set_option synthInstance.maxHeartbeats 400000

theorem mapGet_mapSet {β : Type} (m : List (Str × β)) (k k2 : Str) (v : β) :
    mapGet (mapSet m k v) k2 = if k = k2 then some v else mapGet m k2 := by
  induction m with
  | nil => simp [mapSet, mapGet]
  | cons e rest ih =>
    obtain ⟨k1, v1⟩ := e
    simp only [mapSet]
    by_cases h1 : k1 = k
    · subst h1
      by_cases h2 : k1 = k2 <;> simp [mapGet, h2]
    · rw [if_neg h1]
      by_cases h2 : k1 = k2
      · have hk : ¬ k = k2 := fun h => h1 (h.trans h2.symm).symm
        simp [mapGet, h2, hk]
      · simp [mapGet, h2, ih]

/-- The keys of an association-list map, in insertion order. -/
def mapKeys {β : Type} (m : List (Str × β)) : List Str :=
  m.map Prod.fst

theorem mapHas_iff_mem_keys {β : Type} (m : List (Str × β)) (k : Str) :
    mapHas m k = true ↔ k ∈ mapKeys m := by
  induction m with
  | nil => simp [mapHas, mapGet, mapKeys]
  | cons e rest ih =>
    obtain ⟨k1, v1⟩ := e
    by_cases h : k1 = k
    · subst h
      simp [mapHas, mapGet, mapKeys]
    · simp only [mapHas, mapGet, if_neg h, mapKeys, List.map_cons, List.mem_cons]
      rw [mapHas] at ih
      rw [ih]
      constructor
      · intro h2
        exact Or.inr h2
      · rintro (h2 | h2)
        · exact absurd h2.symm h
        · exact h2

theorem mem_keys_mapSet {β : Type} (m : List (Str × β)) (k k2 : Str) (v : β)
    (h : k2 ∈ mapKeys (mapSet m k v)) : k2 ∈ mapKeys m ∨ k2 = k := by
  induction m with
  | nil =>
    simp [mapSet, mapKeys] at h
    exact Or.inr h
  | cons e rest ih =>
    obtain ⟨k1, v1⟩ := e
    simp only [mapSet] at h
    by_cases h1 : k1 = k
    · rw [if_pos h1] at h
      simp only [mapKeys, List.map_cons, List.mem_cons] at h ⊢
      rcases h with h2 | h2
      · exact Or.inr h2
      · exact Or.inl (Or.inr h2)
    · rw [if_neg h1] at h
      simp only [mapKeys, List.map_cons, List.mem_cons] at h ⊢
      rcases h with h2 | h2
      · exact Or.inl (Or.inl h2)
      · rcases ih h2 with h3 | h3
        · exact Or.inl (Or.inr h3)
        · exact Or.inr h3

theorem mem_entries_mapSet {β : Type} (m : List (Str × β)) (k : Str) (v : β)
    (e : Str × β) (h : e ∈ mapSet m k v) : e ∈ m ∨ e = (k, v) := by
  induction m with
  | nil =>
    simp [mapSet] at h
    exact Or.inr h
  | cons e1 rest ih =>
    obtain ⟨k1, v1⟩ := e1
    simp only [mapSet] at h
    by_cases h1 : k1 = k
    · rw [if_pos h1] at h
      rcases List.mem_cons.mp h with h2 | h2
      · exact Or.inr h2
      · exact Or.inl (List.mem_cons_of_mem _ h2)
    · rw [if_neg h1] at h
      rcases List.mem_cons.mp h with h2 | h2
      · exact Or.inl (by rw [h2]; exact List.mem_cons_self _ _)
      · rcases ih h2 with h3 | h3
        · exact Or.inl (List.mem_cons_of_mem _ h3)
        · exact Or.inr h3

theorem nodup_keys_mapSet {β : Type} (m : List (Str × β)) (k : Str) (v : β)
    (h : (mapKeys m).Nodup) : (mapKeys (mapSet m k v)).Nodup := by
  induction m with
  | nil => simp [mapSet, mapKeys]
  | cons e rest ih =>
    obtain ⟨k1, v1⟩ := e
    simp only [mapSet]
    by_cases h1 : k1 = k
    · rw [if_pos h1]
      subst h1
      simpa [mapKeys] using h
    · rw [if_neg h1]
      simp only [mapKeys, List.map_cons, List.nodup_cons] at h ⊢
      constructor
      · intro hmem
        rcases mem_keys_mapSet rest k k1 v hmem with h2 | h2
        · exact h.1 h2
        · exact h1 h2
      · exact ih h.2

/-- A fold preserves an invariant established at the start, as long as
every element of the folded list preserves it. -/
theorem foldl_preserves_mem {σ ι : Type} (f : σ → ι → σ) (P : σ → Prop) :
    ∀ (l : List ι) (s : σ), P s → (∀ s2 x, x ∈ l → P s2 → P (f s2 x)) →
      P (l.foldl f s)
  | [], _, hs, _ => hs
  | x :: xs, s, hs, hstep => by
    simp only [List.foldl_cons]
    exact foldl_preserves_mem f P xs (f s x)
      (hstep s x (List.mem_cons_self _ _) hs)
      (fun s2 y hy => hstep s2 y (List.mem_cons_of_mem _ hy))

theorem mem_setAdd (s : List Str) (x y : Str) (h : y ∈ setAdd s x) :
    y ∈ s ∨ y = x := by
  unfold setAdd at h
  split at h
  · exact Or.inl h
  · rcases List.mem_append.mp h with h2 | h2
    · exact Or.inl h2
    · exact Or.inr (List.mem_singleton.mp h2)

theorem mem_updateFirst (p : GraphLink → Bool) (f : GraphLink → GraphLink) :
    ∀ (ls : List GraphLink) (y : GraphLink), y ∈ updateFirst p f ls →
      y ∈ ls ∨ ∃ x, x ∈ ls ∧ y = f x
  | [], y, h => by simp [updateFirst] at h
  | l :: ls, y, h => by
    simp only [updateFirst] at h
    split at h
    · rcases List.mem_cons.mp h with h2 | h2
      · exact Or.inr ⟨l, List.mem_cons_self _ _, h2⟩
      · exact Or.inl (List.mem_cons_of_mem _ h2)
    · rcases List.mem_cons.mp h with h2 | h2
      · exact Or.inl (by rw [h2]; exact List.mem_cons_self _ _)
      · rcases mem_updateFirst p f ls y h2 with h3 | h3
        · exact Or.inl (List.mem_cons_of_mem _ h3)
        · obtain ⟨x, hx, hy⟩ := h3
          exact Or.inr ⟨x, List.mem_cons_of_mem _ hx, hy⟩

/-! ### Sorting lemmas -/

/-- Timestamp order on transactions. -/
def TsLe (a b : Transaction) : Prop := a.timestamp ≤ b.timestamp

theorem insertTx_perm (t : Transaction) (l : List Transaction) :
    (insertTx t l).Perm (t :: l) := by
  induction l with
  | nil => simp [insertTx]
  | cons u us ih =>
    simp only [insertTx]
    split
    · exact (ih.cons u).trans (List.Perm.swap t u us)
    · exact List.Perm.refl _

theorem sortTx_perm (l : List Transaction) : (sortTx l).Perm l := by
  induction l with
  | nil => simp [sortTx]
  | cons t ts ih =>
    simp only [sortTx]
    exact (insertTx_perm t (sortTx ts)).trans (ih.cons t)

theorem insertTx_sorted (t : Transaction) (l : List Transaction)
    (h : l.Pairwise TsLe) : (insertTx t l).Pairwise TsLe := by
  induction l with
  | nil => simp [insertTx, List.pairwise_cons]
  | cons u us ih =>
    rcases List.pairwise_cons.mp h with ⟨hu, hus⟩
    simp only [insertTx]
    split
    · rename_i hlt
      refine List.pairwise_cons.mpr ⟨?_, ih hus⟩
      intro x hx
      rcases List.mem_cons.mp ((insertTx_perm t us).mem_iff.mp hx) with h2 | h2
      · rw [h2]; exact le_of_lt hlt
      · exact hu x h2
    · rename_i hnlt
      have hle : t.timestamp ≤ u.timestamp := Nat.le_of_not_lt hnlt
      refine List.pairwise_cons.mpr ⟨?_, h⟩
      intro x hx
      rcases List.mem_cons.mp hx with h2 | h2
      · exact h2 ▸ hle
      · exact le_trans hle (hu x h2)

theorem sortTx_sorted (l : List Transaction) : (sortTx l).Pairwise TsLe := by
  induction l with
  | nil => simp [sortTx]
  | cons t ts ih => exact insertTx_sorted t (sortTx ts) ih

theorem headI_mem_of_ne_nil (l : List Transaction) (h : l ≠ []) :
    l.headI ∈ l := by
  cases l with
  | nil => exact absurd rfl h
  | cons a l => exact List.mem_cons_self _ _

theorem sorted_headI_le (l : List Transaction) (h : l.Pairwise TsLe)
    (x : Transaction) (hx : x ∈ l) : l.headI.timestamp ≤ x.timestamp := by
  cases l with
  | nil => exact absurd hx (List.not_mem_nil _)
  | cons a rest =>
    rcases List.pairwise_cons.mp h with ⟨ha, _⟩
    rcases List.mem_cons.mp hx with h2 | h2
    · exact h2 ▸ le_refl _
    · exact ha x h2

theorem lastD_mem : ∀ (l : List Transaction) (d : Transaction), l ≠ [] →
    lastD l d ∈ l
  | [], _, h => absurd rfl h
  | [t], d, _ => by simp [lastD]
  | t :: u :: l, d, _ => by
    simp only [lastD]
    exact List.mem_cons_of_mem _ (lastD_mem (u :: l) t (by simp))

theorem le_lastD_of_forall_le :
    ∀ (l : List Transaction) (a : Transaction), l.Pairwise TsLe →
      (∀ x ∈ l, a.timestamp ≤ x.timestamp) →
      a.timestamp ≤ (lastD l a).timestamp
  | [], a, _, _ => le_refl _
  | b :: l, a, h, ha => by
    simp only [lastD]
    rcases List.pairwise_cons.mp h with ⟨hb, hl⟩
    exact le_trans (ha b (List.mem_cons_self _ _)) (le_lastD_of_forall_le l b hl hb)

theorem sorted_le_lastD :
    ∀ (l : List Transaction) (d x : Transaction), l.Pairwise TsLe → x ∈ l →
      x.timestamp ≤ (lastD l d).timestamp
  | [], _, x, _, hx => absurd hx (List.not_mem_nil _)
  | b :: l, d, x, h, hx => by
    simp only [lastD]
    rcases List.pairwise_cons.mp h with ⟨hb, hl⟩
    rcases List.mem_cons.mp hx with h2 | h2
    · exact h2 ▸ le_lastD_of_forall_le l b hl hb
    · exact sorted_le_lastD l b x hl h2

theorem sumAmounts_eq_sum_map (l : List Transaction) :
    sumAmounts l = (l.map (fun t => t.amount)).sum := by
  have key : ∀ (l2 : List Transaction) (n : Nat),
      l2.foldl (fun s t => s + t.amount) n = n + (l2.map (fun t => t.amount)).sum := by
    intro l2
    induction l2 with
    | nil => intro n; simp
    | cons t ts ih =>
      intro n
      simp only [List.foldl_cons, List.map_cons, List.sum_cons, ih]
      omega
  simpa [sumAmounts] using key l 0

/-! ### Characterizations of the resolution and record maps -/

/-- Last-wins resolution, stated directly: the latest record in input
order that lists `id` as its account id or one of its extra accounts
wins, and `id` resolves to that record's account id. -/
def lastResolve : List AccountData → Str → Option Str
  | [], _ => none
  | acc :: rest, id =>
    match lastResolve rest id with
    | some r => some r
    | none =>
      if id = acc.account ∨ id ∈ acc.extra_accounts then some acc.account else none

theorem mapGet_extras_fold (extras : List Str) (m : List (Str × Str))
    (v id : Str) :
    mapGet (extras.foldl (fun m2 e => mapSet m2 e v) m) id =
      if id ∈ extras then some v else mapGet m id := by
  induction extras generalizing m with
  | nil => simp
  | cons e es ih =>
    simp only [List.foldl_cons]
    rw [ih]
    by_cases h : id ∈ es
    · simp [h]
    · rw [if_neg h, mapGet_mapSet]
      by_cases h2 : e = id
      · simp [h2, List.mem_cons]
      · have h3 : ¬ id ∈ e :: es := by
          simp only [List.mem_cons]
          rintro (hh | hh)
          · exact h2 hh.symm
          · exact h hh
        rw [if_neg h2, if_neg h3]

theorem mapGet_atmStep (m : List (Str × Str)) (acc : AccountData) (id : Str) :
    mapGet (atmStep m acc) id =
      if id = acc.account ∨ id ∈ acc.extra_accounts then some acc.account
      else mapGet m id := by
  unfold atmStep
  rw [mapGet_extras_fold]
  by_cases h : id ∈ acc.extra_accounts
  · simp [h]
  · rw [if_neg h, mapGet_mapSet]
    by_cases h2 : id = acc.account
    · simp [h2]
    · have h3 : ¬ acc.account = id := fun hh => h2 hh.symm
      simp [h2, h3, h]

theorem mapGet_atm_fold (l : List AccountData) (m : List (Str × Str)) (id : Str) :
    mapGet (l.foldl atmStep m) id =
      match lastResolve l id with
      | some r => some r
      | none => mapGet m id := by
  induction l generalizing m with
  | nil => simp [lastResolve]
  | cons acc rest ih =>
    simp only [List.foldl_cons, lastResolve]
    rw [ih]
    cases lastResolve rest id with
    | some r => simp
    | none =>
      simp only
      rw [mapGet_atmStep]
      by_cases h : id = acc.account ∨ id ∈ acc.extra_accounts
      · simp [h]
      · simp [h]

theorem buildAccountToMain_eq_lastResolve (data : List AccountData) (id : Str) :
    mapGet (buildAccountToMain data) id = lastResolve data id := by
  unfold buildAccountToMain
  rw [mapGet_atm_fold]
  cases lastResolve data id with
  | some r => simp
  | none => simp [mapGet]

/-- Last record in input order with a given account id. -/
def lastRecord : List AccountData → Str → Option AccountData
  | [], _ => none
  | acc :: rest, k =>
    match lastRecord rest k with
    | some r => some r
    | none => if acc.account = k then some acc else none

theorem mapGet_allMap_fold (l : List AccountData)
    (m : List (Str × AccountData)) (k : Str) :
    mapGet (l.foldl (fun m2 acc => mapSet m2 acc.account acc) m) k =
      match lastRecord l k with
      | some r => some r
      | none => mapGet m k := by
  induction l generalizing m with
  | nil => simp [lastRecord]
  | cons acc rest ih =>
    simp only [List.foldl_cons, lastRecord]
    rw [ih]
    cases lastRecord rest k with
    | some r => simp
    | none =>
      simp only
      rw [mapGet_mapSet]
      by_cases h : acc.account = k
      · simp [h]
      · simp [h]

theorem allMapOf_eq_lastRecord (data : List AccountData) (k : Str) :
    mapGet (allMapOf data) k = lastRecord (buildGraphPost data) k := by
  unfold allMapOf
  rw [mapGet_allMap_fold]
  cases lastRecord (buildGraphPost data) k with
  | some r => simp
  | none => simp [mapGet]

theorem lastRecord_mem : ∀ (l : List AccountData) (k : Str) (a : AccountData),
    lastRecord l k = some a → a ∈ l ∧ a.account = k
  | [], _, _, h => by simp [lastRecord] at h
  | acc :: rest, k, a, h => by
    simp only [lastRecord] at h
    cases hrest : lastRecord rest k with
    | some r =>
      rw [hrest] at h
      simp only [Option.some.injEq] at h
      rcases lastRecord_mem rest k r hrest with ⟨hm, hk⟩
      exact ⟨List.mem_cons_of_mem _ (h ▸ hm), h ▸ hk⟩
    | none =>
      rw [hrest] at h
      simp only at h
      split at h
      · rename_i hacc
        simp only [Option.some.injEq] at h
        exact ⟨h ▸ List.mem_cons_self _ _, h ▸ hacc⟩
      · simp at h

/-! ### Record, node-map and splitting lemmas -/

theorem sortAccount_account (a : AccountData) :
    (sortAccount a).account = a.account := by
  unfold sortAccount; split <;> rfl

theorem sortAccount_name (a : AccountData) :
    (sortAccount a).name = a.name := by
  unfold sortAccount; split <;> rfl

theorem sortAccount_ty (a : AccountData) :
    (sortAccount a).ty = a.ty := by
  unfold sortAccount; split <;> rfl

theorem sortAccount_extra (a : AccountData) :
    (sortAccount a).extra_accounts = a.extra_accounts := by
  unfold sortAccount; split <;> rfl

theorem sortAccount_transactions_perm (a : AccountData) :
    ((sortAccount a).transactions).Perm a.transactions := by
  unfold sortAccount
  split
  · exact sortTx_perm a.transactions
  · exact List.Perm.refl _

theorem mapHas_mapSet_iff {β : Type} (m : List (Str × β)) (k : Str) (v : β)
    (k2 : Str) : mapHas (mapSet m k v) k2 = true ↔ k = k2 ∨ mapHas m k2 = true := by
  unfold mapHas
  rw [mapGet_mapSet]
  by_cases h : k = k2 <;> simp [h]

theorem mapHas_nmStep_iff (m : List (Str × GraphNode)) (acc : AccountData)
    (k : Str) : mapHas (nmStep m acc) k = true ↔
      (acc.account = k ∧ lowerStr acc.ty ≠ tyDefi) ∨ mapHas m k = true := by
  unfold nmStep
  split
  · rename_i hty
    rw [mapHas_mapSet_iff]
    constructor
    · rintro (h | h)
      · exact Or.inl ⟨h, hty⟩
      · exact Or.inr h
    · rintro (⟨h, _⟩ | h)
      · exact Or.inl h
      · exact Or.inr h
  · rename_i hty
    constructor
    · exact Or.inr
    · rintro (⟨_, h2⟩ | h)
      · exact absurd h2 hty
      · exact h

theorem mapHas_nodeMap_fold (l : List AccountData) (m : List (Str × GraphNode))
    (k : Str) : mapHas (l.foldl nmStep m) k = true ↔
      mapHas m k = true ∨ ∃ a, a ∈ l ∧ a.account = k ∧ lowerStr a.ty ≠ tyDefi := by
  induction l generalizing m with
  | nil => simp
  | cons acc rest ih =>
    simp only [List.foldl_cons]
    rw [ih, mapHas_nmStep_iff]
    simp only [List.mem_cons]
    constructor
    · rintro ((⟨h1, h2⟩ | hm) | ⟨a, ha, h3, h4⟩)
      · exact Or.inr ⟨acc, Or.inl rfl, h1, h2⟩
      · exact Or.inl hm
      · exact Or.inr ⟨a, Or.inr ha, h3, h4⟩
    · rintro (hm | ⟨a, ha, h3, h4⟩)
      · exact Or.inl (Or.inr hm)
      · rcases ha with ha | ha
        · exact Or.inl (Or.inl ⟨ha ▸ h3, ha ▸ h4⟩)
        · exact Or.inr ⟨a, ha, h3, h4⟩

theorem mapHas_buildNodeMap_iff (data : List AccountData) (k : Str) :
    mapHas (buildNodeMap data) k = true ↔
      ∃ a, a ∈ data ∧ a.account = k ∧ lowerStr a.ty ≠ tyDefi := by
  unfold buildNodeMap
  rw [mapHas_nodeMap_fold]
  simp [mapHas, mapGet]

theorem nodeMap_entries_id (data : List AccountData) :
    ∀ e ∈ buildNodeMap data, e.2.id = e.1 := by
  unfold buildNodeMap
  apply foldl_preserves_mem nmStep (fun m => ∀ e ∈ m, e.2.id = e.1)
  · intro e h
    simp at h
  · intro m acc _ hP e he
    unfold nmStep at he
    split at he
    · rcases mem_entries_mapSet _ _ _ _ he with h2 | h2
      · exact hP e h2
      · rw [h2]
    · exact hP e he

theorem buildNodes_map_id (data : List AccountData) :
    (buildNodes data).map GraphNode.id = mapKeys (buildNodeMap data) := by
  unfold buildNodes mapKeys
  rw [List.map_map]
  apply List.map_congr_left
  intro e he
  exact nodeMap_entries_id data e he

theorem nodeMap_keys_nodup (data : List AccountData) :
    (mapKeys (buildNodeMap data)).Nodup := by
  unfold buildNodeMap
  apply foldl_preserves_mem nmStep (fun m => (mapKeys m).Nodup)
  · simp [mapKeys]
  · intro m acc _ hP
    unfold nmStep
    split
    · exact nodup_keys_mapSet m _ _ hP
    · exact hP

theorem splitOnDash_no_dash (y : Str) (hy : dashChar ∉ y) :
    splitOnDash y = [y] := by
  induction y with
  | nil => rfl
  | cons c rest ih =>
    have hc : ¬ c = dashChar := fun h => hy (h ▸ List.mem_cons_self _ _)
    have hrest : dashChar ∉ rest := fun h => hy (List.mem_cons_of_mem _ h)
    simp only [splitOnDash, if_neg hc, ih hrest]

theorem splitOnDash_append (x y : Str) (hx : dashChar ∉ x) :
    splitOnDash (x ++ dashChar :: y) = x :: splitOnDash y := by
  induction x with
  | nil => simp [splitOnDash]
  | cons c xs ih =>
    have hc : ¬ c = dashChar := fun h => hx (h ▸ List.mem_cons_self _ _)
    have hxs : dashChar ∉ xs := fun h => hx (List.mem_cons_of_mem _ h)
    show splitOnDash (c :: (xs ++ dashChar :: y)) = (c :: xs) :: splitOnDash y
    simp only [splitOnDash, if_neg hc, List.append_eq]
    rw [ih hxs]

theorem splitOnDash_pairKey (a b : Str) (ha : dashChar ∉ a) (hb : dashChar ∉ b) :
    splitOnDash (pairKey a b) = if strLt b a then [b, a] else [a, b] := by
  unfold pairKey
  split
  · rw [splitOnDash_append b a hb, splitOnDash_no_dash a ha]
  · rw [splitOnDash_append a b ha, splitOnDash_no_dash b hb]

theorem findLink_eq_none_iff (links : List GraphLink) (a b : Str) :
    findLink links a b = none ↔
      ∀ l ∈ links,
        ¬ ((l.source = a ∧ l.target = b) ∨ (l.source = b ∧ l.target = a)) := by
  unfold findLink
  rw [List.find?_eq_none]
  simp [pairMatch]

theorem updateFirst_map_eq {γ : Type} (g : GraphLink → γ) (p : GraphLink → Bool)
    (f : GraphLink → GraphLink) (hf : ∀ l, g (f l) = g l) :
    ∀ ls : List GraphLink, (updateFirst p f ls).map g = ls.map g
  | [] => rfl
  | l :: ls => by
    simp only [updateFirst]
    split
    · simp [hf l, updateFirst_map_eq g p f hf ls]
    · simp [updateFirst_map_eq g p f hf ls]

theorem truthyS_some_iff (s : Str) : truthyS (some s) = true ↔ s ≠ [] := by
  cases s <;> simp [truthyS]

/-! ### Concrete inputs used by counterexamples and witnesses -/

/-- Helper: a Transfer transaction. -/
def mkTx (fr toa : String) (amt ts : Nat) : Transaction :=
  { op_type := opTransfer, frId := fr.toList, toId := toa.toList,
    amount := amt, timestamp := ts }

/-- Helper: an account record with label equal to its id. -/
def mkAcc (a ty : String) (extras : List String) (txs : List Transaction) :
    AccountData :=
  { account := a.toList, name := a.toList, ty := ty.toList,
    extra_accounts := extras.map String.toList, transactions := txs }

/-- The spec scenario of C1: X and Y Identified, Z DeFiProtocol,
with Transfers X→Z and Z→Y. -/
def dScenXYZ : List AccountData :=
  [ mkAcc ("x") ("Identified") [] [mkTx ("x") ("z") 500000000 1],
    mkAcc ("y") ("Identified") [] [],
    mkAcc ("z") ("Defi") [] [mkTx ("z") ("y") 500000000 2] ]

/-- A below-threshold Transfer whose receiver (only) is a SpamSuspect. -/
def dRecvSpam : List AccountData :=
  [ mkAcc ("a") ("Identified") [] [mkTx ("a") ("b") 5 1],
    mkAcc ("b") ("Spammer") [] [] ]

/-- A SpamSuspect main transacting with an untracked external at an
amount far above the dust threshold, plus an Identified main doing
the same. -/
def dSpamMain : List AccountData :=
  [ mkAcc ("a") ("Spammer") [] [mkTx ("a") ("e") 20000000 1],
    mkAcc ("b") ("Identified") [] [mkTx ("b") ("e") 20000000 2] ]

/-- Record `b` lists record `a`'s account id among its extra accounts. -/
def dAliasDup : List AccountData :=
  [ mkAcc ("a") ("Identified") [] [],
    mkAcc ("b") ("Identified") [("a")] [] ]

/-- A record whose only transaction is a Mint (not a Transfer). -/
def dMintOnly : List AccountData :=
  [ { account := ("m").toList, name := ("m").toList,
      ty := ("Identified").toList, extra_accounts := [],
      transactions :=
        [{ op_type := ("Mint").toList, frId := ("x").toList,
           toId := ("m").toList, amount := 7, timestamp := 5 }] } ]

/-- A record whose transactions are not in timestamp order. -/
def dUnsorted : List AccountData :=
  [ mkAcc ("a") ("Identified") [] [mkTx ("a") ("q") 5 9, mkTx ("a") ("q") 6 3] ]

/-- Two opposite Transfers, each stored under its sender's record. -/
def dOpp : List AccountData :=
  [ mkAcc ("a") ("Identified") [] [mkTx ("a") ("b") 500000000 1],
    mkAcc ("b") ("Identified") [] [mkTx ("b") ("a") 500000000 2] ]

/-- Two opposite Transfers, both stored under record `a`. -/
def dOppSame : List AccountData :=
  [ mkAcc ("a") ("Identified") []
      [mkTx ("a") ("b") 500000000 1, mkTx ("b") ("a") 500000000 2],
    mkAcc ("b") ("Identified") [] [] ]

/-- One plain Transfer between two Identified mains. -/
def dPlain : List AccountData :=
  [ mkAcc ("a") ("Identified") [] [mkTx ("a") ("b") 500000000 1],
    mkAcc ("b") ("Identified") [] [] ]

/-- Two Identified mains both transacting with the untracked id `e`. -/
def dConnE : List AccountData :=
  [ mkAcc ("a") ("Identified") [] [mkTx ("a") ("e") 500000000 1],
    mkAcc ("b") ("Identified") [] [mkTx ("b") ("e") 500000000 2] ]

/-! ### Claim C1 -/

/-- C1: counterexample.  On the spec scenario (X, Y Identified, Z
DeFiProtocol, Transfers X→Z and Z→Y) `buildGraph` emits the nodes
[X, Y] but NO edge at all — in particular no connector edge {X, Y}
with connector list [Z] as the claim requires. -/
theorem C1_counterexample :
    (buildGraph dScenXYZ).nodes.map GraphNode.id = [("x").toList, ("y").toList] ∧
    (buildGraph dScenXYZ).links = [] := by
  constructor <;> decide

/-! ### Claim C4 -/

/-- C4: counterexample.  Record `b` lists record `a`'s account id as an
extra account.  `buildGraph` does not fail: it still produces both
nodes, and the id `"a"` silently resolves to `"b"` — record `a`'s
account id no longer resolves to itself even though the build
succeeded. -/
theorem C4_counterexample :
    mapGet (buildAccountToMain dAliasDup) (("a").toList) = some (("b").toList) ∧
    (buildGraph dAliasDup).nodes.length = 2 := by
  constructor <;> decide

/-- C4 as amended: `buildGraph` never rejects the batch; alias
resolution is silent and last-wins.  Every id resolves to the account
id of the LAST record in input order that lists it (as its own
account id or among its extra accounts), and to nothing if no record
lists it. -/
theorem C4_amended (data : List AccountData) (id : Str) :
    mapGet (buildAccountToMain data) id = lastResolve data id :=
  buildAccountToMain_eq_lastResolve data id

/-! ### Claim C9 -/

/-- C9: counterexample.  A Transfer a→b stored under record `a` and a
later Transfer b→a stored under record `b` both record holder-relative
direction SEND, so the resulting single edge has direction SEND, not
BOTH as the claim requires. -/
theorem C9_counterexample :
    (buildGraph dOpp).links =
      [{ source := ("a").toList, target := ("b").toList,
         direction := Direction.SEND, connectors := none }] := by
  decide

/-- The direction lattice join described by the spec: Send ⊔ Receive =
Both, Both ⊔ anything = Both, and each direction joined with itself is
itself. -/
def dirJoinSpec : Direction → Direction → Direction
  | Direction.SEND, Direction.SEND => Direction.SEND
  | Direction.RECEIVE, Direction.RECEIVE => Direction.RECEIVE
  | Direction.SEND, Direction.RECEIVE => Direction.BOTH
  | Direction.RECEIVE, Direction.SEND => Direction.BOTH
  | Direction.BOTH, _ => Direction.BOTH
  | Direction.SEND, Direction.BOTH => Direction.BOTH
  | Direction.RECEIVE, Direction.BOTH => Direction.BOTH

/-- C9 as amended: the per-transaction direction is relative to the
record holding the transaction, so an edge is promoted to Both exactly
when the holder-relative directions differ — for example two opposite
Transfers both stored under record `a` do yield direction BOTH — and
the merge applied on an existing edge is precisely the spec's lattice
join. -/
theorem C9_amended :
    (∀ e d : Direction, mergeDirection e d = dirJoinSpec e d) ∧
    (buildGraph dOppSame).links =
      [{ source := ("a").toList, target := ("b").toList,
         direction := Direction.BOTH, connectors := none }] := by
  constructor
  · intro e d
    cases e <;> cases d <;> rfl
  · decide

/-! ### Claim C6 -/

/-- C6: counterexample.  `buildGraph` sorts each non-defi record's
transaction list in place, so a record whose transactions are not in
ascending timestamp order is mutated: the input is not left unchanged. -/
theorem C6_counterexample : buildGraphPost dUnsorted ≠ dUnsorted := by
  decide

/-- C6 as amended: the only mutation `buildGraph` performs on its input
is the in-place sort: every record keeps its account id, name,
category and extra accounts, its transaction list is a permutation of
the original (sorted by ascending timestamp for non-defi records), and
defi records are untouched. -/
theorem C6_amended (data : List AccountData) :
    List.Forall₂
      (fun a b =>
        b.account = a.account ∧ b.name = a.name ∧ b.ty = a.ty ∧
        b.extra_accounts = a.extra_accounts ∧
        b.transactions.Perm a.transactions ∧
        (lowerStr a.ty ≠ tyDefi → b.transactions.Pairwise TsLe) ∧
        (lowerStr a.ty = tyDefi → b = a))
      data (buildGraphPost data) := by
  unfold buildGraphPost
  induction data with
  | nil => exact List.Forall₂.nil
  | cons acc rest ih =>
    refine List.Forall₂.cons ?_ ih
    unfold sortAccount
    split
    · rename_i hcond
      refine ⟨rfl, rfl, rfl, rfl, sortTx_perm _, fun _ => sortTx_sorted _, ?_⟩
      intro hdefi
      exact absurd hdefi hcond.1
    · rename_i hcond
      refine ⟨rfl, rfl, rfl, rfl, List.Perm.refl _, ?_, fun _ => rfl⟩
      intro hnd
      have htx : acc.transactions = [] := by
        by_contra hne
        exact hcond ⟨hnd, hne⟩
      rw [htx]
      exact List.Pairwise.nil

/-! ### Claim C5 -/

/-- C5: counterexample.  A record whose only transaction is a Mint (not
a Transfer) gets populated statistics with `tx_count = 1`, while the
claim requires empty statistics for a record with zero Transfer
transactions. -/
theorem C5_counterexample :
    (buildGraph dMintOnly).nodes.map
        (fun n => n.extra_info.map (fun i => i.tx_count)) = [some 1] := by
  decide

/-- C5 as amended: a node's statistics are computed from ALL of the
record's transactions regardless of operation kind: stats are empty
exactly when the record has no transactions at all, `tx_count` counts
every transaction, `average_amount` averages every amount, and
`start_ts`/`end_ts` are the minimum and maximum timestamps over every
transaction. -/
theorem C5_amended (acc : AccountData) (info : ExtraInfo) :
    (mkExtraInfo acc = none ↔ acc.transactions = []) ∧
    (mkExtraInfo acc = some info →
      info.tx_count = acc.transactions.length ∧
      info.average_amount =
        (((((acc.transactions.map (fun t => t.amount)).sum : ℕ)) : ℚ) /
          (acc.transactions.length : ℚ)) / (100000000 : ℚ) ∧
      info.start_ts ∈ acc.transactions.map (fun t => t.timestamp) ∧
      info.end_ts ∈ acc.transactions.map (fun t => t.timestamp) ∧
      ∀ t ∈ acc.transactions,
        info.start_ts ≤ t.timestamp ∧ t.timestamp ≤ info.end_ts) := by
  have hlen := (sortTx_perm acc.transactions).length_eq
  constructor
  · unfold mkExtraInfo
    split
    · rename_i h; simp [h]
    · rename_i h; simp [h]
  · intro h
    unfold mkExtraInfo at h
    split at h
    · exact absurd h (by simp)
    · rename_i hne
      have hsne : sortTx acc.transactions ≠ [] := by
        intro hh
        rw [hh] at hlen
        exact hne (List.length_eq_zero.mp hlen.symm)
      simp only [Option.some.injEq] at h
      subst h
      refine ⟨hlen, ?_, ?_, ?_, ?_⟩
      · have hsum : sumAmounts (sortTx acc.transactions) =
            (acc.transactions.map (fun t => t.amount)).sum := by
          rw [sumAmounts_eq_sum_map]
          exact ((sortTx_perm acc.transactions).map _).sum_eq
        simp only [hsum, hlen]
      · exact List.mem_map_of_mem _
          ((sortTx_perm acc.transactions).subset
            (headI_mem_of_ne_nil _ hsne))
      · exact List.mem_map_of_mem _
          ((sortTx_perm acc.transactions).subset (lastD_mem _ default hsne))
      · intro t ht
        have hts : t ∈ sortTx acc.transactions :=
          (sortTx_perm acc.transactions).mem_iff.mpr ht
        exact ⟨sorted_headI_le _ (sortTx_sorted _) t hts,
          sorted_le_lastD _ default t (sortTx_sorted _) hts⟩

/-! ### Connector-pass key lemmas and claims C1 (amended) and C2 -/

theorem mapGet_mem {β : Type} : ∀ (m : List (Str × β)) (k : Str) (v : β),
    mapGet m k = some v → (k, v) ∈ m
  | [], _, _, h => by simp [mapGet] at h
  | (k1, v1) :: rest, k, v, h => by
    simp only [mapGet] at h
    split at h
    · rename_i hk
      simp only [Option.some.injEq] at h
      rw [← hk, ← h]
      exact List.mem_cons_self _ _
    · exact List.mem_cons_of_mem _ (mapGet_mem rest k v h)

theorem cnmAdd_key (m : List (Str × List Str)) (k v : Str) :
    ∀ e ∈ cnmAdd m k v, e ∈ m ∨ e.1 = k := by
  intro e he
  unfold cnmAdd at he
  split at he <;>
    · rcases mem_entries_mapSet _ _ _ _ he with h | h
      · exact Or.inl h
      · exact Or.inr (by rw [h])

theorem cnmAdd_values (m : List (Str × List Str)) (k v0 : Str)
    (Q : Str → Prop) (hm : ∀ e ∈ m, ∀ v ∈ e.2, Q v) (hv : Q v0) :
    ∀ e ∈ cnmAdd m k v0, ∀ v ∈ e.2, Q v := by
  intro e he v hvmem
  unfold cnmAdd at he
  split at he
  · rcases mem_entries_mapSet _ _ _ _ he with h | h
    · exact hm e h v hvmem
    · have hv2 : v ∈ setAdd [] v0 := by rw [h] at hvmem; exact hvmem
      rcases mem_setAdd _ _ _ hv2 with h2 | h2
      · simp at h2
      · exact h2 ▸ hv
  · rename_i s hs
    rcases mem_entries_mapSet _ _ _ _ he with h | h
    · exact hm e h v hvmem
    · have hv2 : v ∈ setAdd s v0 := by rw [h] at hvmem; exact hvmem
      rcases mem_setAdd _ _ _ hv2 with h2 | h2
      · exact hm (k, s) (mapGet_mem m k s hs) v h2
      · exact h2 ▸ hv

theorem branchAdd_key (allM : List (Str × AccountData))
    (st : List (Str × List Str)) (mainId extId : Str) (amt : Nat) :
    ∀ e ∈ branchAdd allM st mainId extId amt, e ∈ st ∨ e.1 = extId := by
  intro e he
  simp only [branchAdd] at he
  split at he
  · exact cnmAdd_key st extId mainId e he
  · exact Or.inl he

theorem branchAdd_values (allM : List (Str × AccountData))
    (st : List (Str × List Str)) (mainId extId : Str) (amt : Nat)
    (Q : Str → Prop) (hm : ∀ e ∈ st, ∀ v ∈ e.2, Q v) (hv : Q mainId) :
    ∀ e ∈ branchAdd allM st mainId extId amt, ∀ v ∈ e.2, Q v := by
  intro e he
  simp only [branchAdd] at he
  split at he
  · exact cnmAdd_values st extId mainId Q hm hv e he
  · exact hm e he

theorem connectorStep_keyProp (allM : List (Str × AccountData))
    (aTM : List (Str × Str)) (nodeM : List (Str × GraphNode))
    (st : List (Str × List Str)) (tx : Transaction)
    (hP : ∀ e ∈ st, truthyS (mapGet aTM e.1) = false) :
    ∀ e ∈ connectorStep allM aTM nodeM st tx,
      truthyS (mapGet aTM e.1) = false := by
  intro e he
  simp only [connectorStep] at he
  split at he
  · exact hP e he
  · split at he
    · exact hP e he
    · have hst1 : ∀ e2 ∈ (match mapGet aTM tx.frId with
          | some fromMain =>
            if fromMain ≠ [] ∧ mapHas nodeM fromMain ∧
                ¬ truthyS (mapGet aTM tx.toId) then
              branchAdd allM st fromMain tx.toId tx.amount
            else st
          | none => st), truthyS (mapGet aTM e2.1) = false := by
        intro e2 he2
        split at he2
        · split at he2
          · rename_i hguard
            rcases branchAdd_key _ _ _ _ _ e2 he2 with h | h
            · exact hP e2 h
            · rw [h]
              cases hb : truthyS (mapGet aTM tx.toId)
              · rfl
              · exact absurd hb (by simpa using hguard.2.2)
          · exact hP e2 he2
        · exact hP e2 he2
      split at he
      · split at he
        · rename_i hguard
          rcases branchAdd_key _ _ _ _ _ e he with h | h
          · exact hst1 e h
          · rw [h]
            cases hb : truthyS (mapGet aTM tx.frId)
            · rfl
            · exact absurd hb (by simpa using hguard.2.2)
        · exact hst1 e he
      · exact hst1 e he

theorem runConnector_keys (allM : List (Str × AccountData))
    (aTM : List (Str × Str)) (nodeM : List (Str × GraphNode)) :
    ∀ e ∈ runConnector allM aTM nodeM, truthyS (mapGet aTM e.1) = false := by
  unfold runConnector
  exact foldl_preserves_mem _
    (fun st => ∀ e ∈ st, truthyS (mapGet aTM e.1) = false) allM []
    (by intro e he; simp at he)
    (fun st entry _ hP =>
      foldl_preserves_mem _
        (fun st2 => ∀ e ∈ st2, truthyS (mapGet aTM e.1) = false)
        entry.2.transactions st hP
        (fun st2 tx _ hP2 => connectorStep_keyProp allM aTM nodeM st2 tx hP2))

/-- C1 as amended: connector pairings are only ever recorded under ids
whose resolution through `accountToMain` is JS-falsy (unresolved or
empty).  A tracked DeFiProtocol account resolves to itself, so its
Transfer transactions never create connector evidence; on the spec
scenario the output is nodes [X, Y] and no edges (see the
counterexample). -/
theorem C1_amended (data : List AccountData) (k : Str)
    (h : mapHas (runConnector (allMapOf data) (buildAccountToMain data)
        (buildNodeMap data)) k = true) :
    truthyS (mapGet (buildAccountToMain data) k) = false := by
  rw [mapHas_iff_mem_keys] at h
  unfold mapKeys at h
  obtain ⟨e, he, hk⟩ := List.mem_map.mp h
  rw [← hk]
  exact runConnector_keys _ _ _ e he

/-- Witness for C1 as amended: on `dConnE` the untracked id `"e"` is a
recorded connector key, and its resolution is indeed falsy. -/
theorem C1_amended_witness :
    mapHas (runConnector (allMapOf dConnE) (buildAccountToMain dConnE)
        (buildNodeMap dConnE)) (("e").toList) = true ∧
    truthyS (mapGet (buildAccountToMain dConnE) (("e").toList)) = false :=
  ⟨by decide, C1_amended dConnE (("e").toList) (by decide)⟩

/-! ### Claim C2 -/

/-- C2: counterexample.  A Transfer of amount 5 (far below the dust
threshold) whose RECEIVER is a SpamSuspect still creates an edge: the
direct pass checks only the sender's category. -/
theorem C2_counterexample :
    (buildGraph dRecvSpam).links =
      [{ source := ("a").toList, target := ("b").toList,
         direction := Direction.SEND, connectors := none }] := by
  decide

/-- If the resolved sender's record has category spammer and the amount
is below 10,000,000, the direct-pass core leaves the links unchanged. -/
theorem directCore_spam_links (nodeM : List (Str × GraphNode)) (st : LinkState)
    (fromMain toMain : Str) (fromNode toNode : AccountData)
    (direction : Direction) (amt : Nat)
    (hty : lowerStr fromNode.ty = tySpammer) (hamt : amt < 10000000) :
    (directCore nodeM st fromMain toMain fromNode toNode direction amt).links =
      st.links := by
  unfold directCore
  by_cases h1 : lowerStr fromNode.ty = tyDefi ∨ lowerStr toNode.ty = tyDefi
  · rw [if_pos h1]
  · rw [if_neg h1]
    by_cases h2 : (lowerStr fromNode.ty = tyCex ∧ lowerStr toNode.ty = tyCex) ∨
        (lowerStr fromNode.ty = tyFoundation ∧ lowerStr toNode.ty = tyFoundation)
    · rw [if_pos h2]
    · rw [if_neg h2, if_pos ⟨hty, hamt⟩]

/-- C2 as amended: in the direct pass only the resolved SENDER's
category is dust-checked: whenever the sender's main resolves to a
record of category SpamSuspect and the amount is strictly below
10,000,000, the transaction adds no link and changes no existing link
(receiver-side SpamSuspect is not checked, as the counterexample
shows). -/
theorem C2_amended (allM : List (Str × AccountData)) (aTM : List (Str × Str))
    (nodeM : List (Str × GraphNode)) (acc : AccountData) (st : LinkState)
    (tx : Transaction) (f : Str) (rec : AccountData)
    (hf : mapGet aTM tx.frId = some f)
    (hrec : mapGet allM f = some rec)
    (hty : lowerStr rec.ty = tySpammer)
    (hamt : tx.amount < 10000000) :
    (directStep allM aTM nodeM acc st tx).links = st.links := by
  unfold directStep
  cases htom : mapGet aTM tx.toId with
  | none =>
    simp only [hf, htom]
    split <;> rfl
  | some t =>
    simp only [hf, htom, hrec]
    split
    · rfl
    · split
      · rfl
      · split
        · rename_i fromNode toNode heq1 heq2
          injection heq1 with heq1
          subst heq1
          exact directCore_spam_links nodeM st f t rec toNode _ tx.amount hty hamt
        · rfl

/-- A SpamSuspect sender of a below-threshold Transfer. -/
def dSpamSend : List AccountData :=
  [ mkAcc ("a") ("Spammer") [] [mkTx ("a") ("b") 5 1],
    mkAcc ("b") ("Identified") [] [] ]

/-- Witness for C2 as amended: the dust-filtered step applied to a
concrete SpamSuspect sender leaves the link list unchanged. -/
theorem C2_amended_witness :
    (directStep (allMapOf dSpamSend) (buildAccountToMain dSpamSend)
        (buildNodeMap dSpamSend) (mkAcc ("a") ("Spammer") [] [mkTx ("a") ("b") 5 1])
        ⟨[], []⟩ (mkTx ("a") ("b") 5 1)).links = [] :=
  C2_amended (allMapOf dSpamSend) (buildAccountToMain dSpamSend)
    (buildNodeMap dSpamSend) (mkAcc ("a") ("Spammer") [] [mkTx ("a") ("b") 5 1])
    ⟨[], []⟩ (mkTx ("a") ("b") 5 1) (("a").toList)
    (mkAcc ("a") ("Spammer") [] [mkTx ("a") ("b") 5 1])
    (by decide) (by decide) (by decide) (by decide)

/-! ### Case analyses of the two upsert steps -/

theorem directStep_cases (allM : List (Str × AccountData)) (aTM : List (Str × Str))
    (nodeM : List (Str × GraphNode)) (acc : AccountData) (st : LinkState)
    (tx : Transaction) :
    (directStep allM aTM nodeM acc st tx).links = st.links ∨
    ∃ f t fromNode toNode d,
      mapGet allM f = some fromNode ∧ mapGet allM t = some toNode ∧
      directStep allM aTM nodeM acc st tx =
        directCore nodeM st f t fromNode toNode d tx.amount := by
  unfold directStep
  split
  · exact Or.inl rfl
  · split
    · rename_i fromMain toMain heq1 heq2
      split
      · exact Or.inl rfl
      · split
        · rename_i fromNode toNode heq3 heq4
          exact Or.inr ⟨fromMain, toMain, fromNode, toNode, _, heq3, heq4, rfl⟩
        · exact Or.inl rfl
    · exact Or.inl rfl

theorem directCore_cases (nodeM : List (Str × GraphNode)) (st : LinkState)
    (fromMain toMain : Str) (fromNode toNode : AccountData)
    (direction : Direction) (amt : Nat) :
    (directCore nodeM st fromMain toMain fromNode toNode direction amt).links = st.links ∨
    (lowerStr fromNode.ty ≠ tyDefi ∧ lowerStr toNode.ty ≠ tyDefi ∧
      ¬ ((lowerStr fromNode.ty = tyCex ∧ lowerStr toNode.ty = tyCex) ∨
         (lowerStr fromNode.ty = tyFoundation ∧ lowerStr toNode.ty = tyFoundation)) ∧
      findLink st.links fromMain toMain = none ∧
      (directCore nodeM st fromMain toMain fromNode toNode direction amt).links =
        st.links ++
          [{ source := fromMain, target := toMain, direction := direction,
             connectors := none }]) ∨
    (directCore nodeM st fromMain toMain fromNode toNode direction amt).links =
      updateFirst (pairMatch fromMain toMain)
        (fun l => { l with direction := mergeDirection l.direction direction })
        st.links := by
  by_cases h1 : lowerStr fromNode.ty = tyDefi ∨ lowerStr toNode.ty = tyDefi
  · left
    unfold directCore
    rw [if_pos h1]
  · by_cases h2 : (lowerStr fromNode.ty = tyCex ∧ lowerStr toNode.ty = tyCex) ∨
        (lowerStr fromNode.ty = tyFoundation ∧ lowerStr toNode.ty = tyFoundation)
    · left
      unfold directCore
      rw [if_neg h1, if_pos h2]
    · by_cases h3 : lowerStr fromNode.ty = tySpammer ∧ amt < 10000000
      · left
        unfold directCore
        rw [if_neg h1, if_neg h2, if_pos h3]
      · cases hfind : findLink st.links fromMain toMain with
        | none =>
          right; left
          refine ⟨(not_or.mp h1).1, (not_or.mp h1).2, h2, rfl, ?_⟩
          unfold directCore
          rw [if_neg h1, if_neg h2, if_neg h3]
          simp only [hfind]
        | some existing =>
          by_cases h4 : existing.direction ≠ direction
          · right; right
            unfold directCore
            rw [if_neg h1, if_neg h2, if_neg h3]
            simp only [hfind]
            rw [if_pos h4]
          · left
            unfold directCore
            rw [if_neg h1, if_neg h2, if_neg h3]
            simp only [hfind]
            rw [if_neg h4]

theorem connCore_cases (allM : List (Str × AccountData)) (links : List GraphLink)
    (mainA mainB : Str) (valid : List Str) :
    connCore allM links mainA mainB valid = links ∨
    (¬ (truthyS ((mapGet allM mainA).map (fun a => lowerStr a.ty)) = true ∧
        truthyS ((mapGet allM mainB).map (fun a => lowerStr a.ty)) = true ∧
        (((mapGet allM mainA).map (fun a => lowerStr a.ty) = some tyCex ∧
          (mapGet allM mainB).map (fun a => lowerStr a.ty) = some tyCex) ∨
         ((mapGet allM mainA).map (fun a => lowerStr a.ty) = some tyFoundation ∧
          (mapGet allM mainB).map (fun a => lowerStr a.ty) = some tyFoundation))) ∧
      findLink links mainA mainB = none ∧
      connCore allM links mainA mainB valid =
        links ++
          [{ source := mainA, target := mainB, direction := Direction.SEND,
             connectors := some valid }]) ∨
    connCore allM links mainA mainB valid =
      updateFirst (pairMatch mainA mainB) (connUpdate valid) links := by
  by_cases hg : truthyS ((mapGet allM mainA).map (fun a => lowerStr a.ty)) = true ∧
      truthyS ((mapGet allM mainB).map (fun a => lowerStr a.ty)) = true ∧
      (((mapGet allM mainA).map (fun a => lowerStr a.ty) = some tyCex ∧
        (mapGet allM mainB).map (fun a => lowerStr a.ty) = some tyCex) ∨
       ((mapGet allM mainA).map (fun a => lowerStr a.ty) = some tyFoundation ∧
        (mapGet allM mainB).map (fun a => lowerStr a.ty) = some tyFoundation))
  · left
    unfold connCore
    rw [if_pos hg]
  · cases hfind : findLink links mainA mainB with
    | none =>
      right; left
      refine ⟨hg, rfl, ?_⟩
      unfold connCore
      rw [if_neg hg]
      simp only [hfind]
    | some existing =>
      right; right
      unfold connCore
      rw [if_neg hg]
      simp only [hfind]

theorem connLinkStep_cases (allM : List (Str × AccountData))
    (links : List GraphLink) (e : Str × List Str) :
    connLinkStep allM links e = links ∨
    connLinkStep allM links e =
      connCore allM links ((splitOnDash e.1).getD 0 [])
        ((splitOnDash e.1).getD 1 []) (validIds allM e.2) := by
  unfold connLinkStep
  by_cases hv : validIds allM e.2 = []
  · rw [if_pos hv]
    exact Or.inl rfl
  · rw [if_neg hv]
    exact Or.inr rfl

/-! ### Claim C3 -/

theorem directStep_pres_connectors (allM : List (Str × AccountData))
    (aTM : List (Str × Str)) (nodeM : List (Str × GraphNode))
    (acc : AccountData) (st : LinkState) (tx : Transaction)
    (hP : ∀ l ∈ st.links, l.connectors = none) :
    ∀ l ∈ (directStep allM aTM nodeM acc st tx).links, l.connectors = none := by
  rcases directStep_cases allM aTM nodeM acc st tx with h | ⟨f, t, fn, tn, d, _, _, heq⟩
  · intro l hl
    rw [h] at hl
    exact hP l hl
  · rw [heq]
    rcases directCore_cases nodeM st f t fn tn d tx.amount with
      h2 | ⟨_, _, _, _, h2⟩ | h2
    · intro l hl
      rw [h2] at hl
      exact hP l hl
    · intro l hl
      rw [h2] at hl
      rcases List.mem_append.mp hl with h3 | h3
      · exact hP l h3
      · rw [List.mem_singleton.mp h3]
    · intro l hl
      rw [h2] at hl
      rcases mem_updateFirst _ _ _ l hl with h3 | ⟨x, hx, hlx⟩
      · exact hP l h3
      · rw [hlx]
        exact hP x hx

theorem runDirect_connectors_none (allM : List (Str × AccountData))
    (aTM : List (Str × Str)) (nodeM : List (Str × GraphNode)) :
    ∀ l ∈ (runDirect allM aTM nodeM).links, l.connectors = none := by
  unfold runDirect
  exact foldl_preserves_mem _
    (fun st : LinkState => ∀ l ∈ st.links, l.connectors = none) allM ⟨[], []⟩
    (by intro l hl; simp at hl)
    (fun st entry _ hP =>
      foldl_preserves_mem _
        (fun st2 : LinkState => ∀ l ∈ st2.links, l.connectors = none)
        entry.2.transactions st hP
        (fun st2 tx _ hP2 =>
          directStep_pres_connectors allM aTM nodeM entry.2 st2 tx hP2))

theorem validIds_not_spammer (allM : List (Str × AccountData)) (ids : List Str) :
    ∀ c ∈ validIds allM ids, ∀ a, mapGet allM c = some a →
      lowerStr a.ty ≠ tySpammer := by
  intro c hc a ha
  unfold validIds at hc
  obtain ⟨hmem, hpred⟩ := List.mem_filter.mp hc
  rw [ha] at hpred
  simpa using hpred

theorem connUpdate_mem (valid : List Str) (l : GraphLink) (c : Str)
    (hc : c ∈ (connUpdate valid l).connectors.getD []) :
    c ∈ l.connectors.getD [] ∨ c ∈ valid := by
  unfold connUpdate at hc
  cases hco : l.connectors with
  | some cs =>
    rw [hco] at hc
    simp only [Option.getD_some] at hc
    rcases List.mem_append.mp hc with h | h
    · exact Or.inl h
    · exact Or.inr h
  | none =>
    rw [hco] at hc
    simp only [Option.getD_some] at hc
    exact Or.inr hc

/-- Output links never carry a tracked-spammer connector. -/
def NoSpamConn (allM : List (Str × AccountData)) (links : List GraphLink) : Prop :=
  ∀ l ∈ links, ∀ c ∈ l.connectors.getD [], ∀ a, mapGet allM c = some a →
    lowerStr a.ty ≠ tySpammer

theorem connLinkStep_pres_nospam (allM : List (Str × AccountData))
    (links : List GraphLink) (e : Str × List Str)
    (hP : NoSpamConn allM links) : NoSpamConn allM (connLinkStep allM links e) := by
  rcases connLinkStep_cases allM links e with h | h
  · rw [h]
    exact hP
  · rw [h]
    rcases connCore_cases allM links ((splitOnDash e.1).getD 0 [])
        ((splitOnDash e.1).getD 1 []) (validIds allM e.2) with
      h2 | ⟨_, _, h2⟩ | h2
    · rw [h2]
      exact hP
    · rw [h2]
      intro l hl c hc a ha
      rcases List.mem_append.mp hl with h3 | h3
      · exact hP l h3 c hc a ha
      · rw [List.mem_singleton.mp h3] at hc
        simp only [Option.getD_some] at hc
        exact validIds_not_spammer allM e.2 c hc a ha
    · rw [h2]
      intro l hl c hc a ha
      rcases mem_updateFirst _ _ _ l hl with h3 | ⟨x, hx, hlx⟩
      · exact hP l h3 c hc a ha
      · rw [hlx] at hc
        rcases connUpdate_mem _ x c hc with h4 | h4
        · exact hP x hx c h4 a ha
        · exact validIds_not_spammer allM e.2 c h4 a ha

/-- C3: counterexample.  A SpamSuspect main transfers 20,000,000 subunits
(double the claimed 10,000,000 threshold) to an external bridge also
used by an Identified main, yet no connector evidence and no edge is
produced: the connector pass drops SpamSuspect mains regardless of
amount, contradicting the claim that at-or-above-threshold
transactions do create connector evidence. -/
theorem C3_counterexample : (buildGraph dSpamMain).links = [] := by
  decide

/-- C3 as amended: the connector pass does not reuse the direct pass's
dust rule.  A pairing is never recorded for a SpamSuspect main
(regardless of amount, threshold comparisons use ≤ 1,000,000 and are
unreachable for tracked externals), and tracked SpamSuspect ids are
filtered out of every connector list, so no output edge ever carries a
connector id whose record has category SpamSuspect. -/
theorem C3_amended (data : List AccountData) (l : GraphLink) (c : Str)
    (a : AccountData) (hl : l ∈ (buildGraph data).links)
    (hc : c ∈ l.connectors.getD [])
    (ha : mapGet (allMapOf data) c = some a) :
    lowerStr a.ty ≠ tySpammer := by
  have hbase : NoSpamConn (allMapOf data)
      (runDirect (allMapOf data) (buildAccountToMain data) (buildNodeMap data)).links := by
    intro l2 hl2 c2 hc2 a2 _
    rw [runDirect_connectors_none _ _ _ l2 hl2] at hc2
    simp at hc2
  have h : NoSpamConn (allMapOf data) (buildLinks data) :=
    foldl_preserves_mem (connLinkStep (allMapOf data)) (NoSpamConn (allMapOf data))
      (buildConnectionMap (allMapOf data)
        (runConnector (allMapOf data) (buildAccountToMain data) (buildNodeMap data)))
      (runDirect (allMapOf data) (buildAccountToMain data) (buildNodeMap data)).links
      hbase
      (fun s e _ hP => connLinkStep_pres_nospam (allMapOf data) s e hP)
  exact h l hl c hc a ha

/-- Two Identified mains bridged by a tracked record whose account id is
the empty string: the empty id is JS-falsy, so it is treated as an
external connector even though it is tracked. -/
def dEmptyConn : List AccountData :=
  [ mkAcc ("a") ("Identified") [] [mkTx ("a") ("") 500000000 1],
    mkAcc ("b") ("Identified") [] [mkTx ("b") ("") 500000000 2],
    mkAcc ("") ("Suspect") [] [] ]

/-- Witness for C3 as amended: a tracked non-spammer connector (the
empty-id Suspect record) does appear on an output edge, and the
theorem applies to it. -/
theorem C3_amended_witness :
    ({ source := ("a").toList, target := ("b").toList,
       direction := Direction.SEND, connectors := some [[]] } : GraphLink) ∈
        (buildGraph dEmptyConn).links ∧
    lowerStr (mkAcc ("") ("Suspect") [] []).ty ≠ tySpammer :=
  ⟨by decide,
    C3_amended dEmptyConn
      { source := ("a").toList, target := ("b").toList,
        direction := Direction.SEND, connectors := some [[]] }
      [] (mkAcc ("") ("Suspect") [] [])
      (by decide) (by decide) (by decide)⟩

/-- The record of `dMintOnly`. -/
def accM5 : AccountData :=
  { account := ("m").toList, name := ("m").toList,
    ty := ("Identified").toList, extra_accounts := [],
    transactions :=
      [{ op_type := ("Mint").toList, frId := ("x").toList,
         toId := ("m").toList, amount := 7, timestamp := 5 }] }

/-- The statistics `buildGraph` computes for `accM5` (the average is
kept as the defining rational expression, since rational normalization
is not kernel-reducible). -/
def infoM5 : ExtraInfo :=
  { average_amount :=
      ((sumAmounts (sortTx accM5.transactions) : ℚ) /
        ((sortTx accM5.transactions).length : ℚ)) / (100000000 : ℚ)
    tx_count := (sortTx accM5.transactions).length
    start_ts := (sortTx accM5.transactions).headI.timestamp
    end_ts := (lastD (sortTx accM5.transactions) default).timestamp
    extra_accounts := accM5.extra_accounts }

/-- Witness for C5 as amended at the Mint-only record. -/
theorem C5_amended_witness :
    mkExtraInfo accM5 = some infoM5 ∧
    infoM5.tx_count = accM5.transactions.length :=
  ⟨rfl, ((C5_amended accM5 infoM5).2 rfl).1⟩

/-! ### Claim C7 -/

/-- The lowercased category of the record a given id is mapped to. -/
def catOf (data : List AccountData) (id : Str) : Option Str :=
  (mapGet (allMapOf data) id).map (fun a => lowerStr a.ty)

/-- No link joins two cex-category or two foundation-category records. -/
def NoSameCat (allM : List (Str × AccountData)) (links : List GraphLink) : Prop :=
  ∀ l ∈ links,
    ¬ ((mapGet allM l.source).map (fun a => lowerStr a.ty) = some tyCex ∧
       (mapGet allM l.target).map (fun a => lowerStr a.ty) = some tyCex) ∧
    ¬ ((mapGet allM l.source).map (fun a => lowerStr a.ty) = some tyFoundation ∧
       (mapGet allM l.target).map (fun a => lowerStr a.ty) = some tyFoundation)

theorem directStep_pres_nosame (allM : List (Str × AccountData))
    (aTM : List (Str × Str)) (nodeM : List (Str × GraphNode))
    (acc : AccountData) (st : LinkState) (tx : Transaction)
    (hP : NoSameCat allM st.links) :
    NoSameCat allM (directStep allM aTM nodeM acc st tx).links := by
  rcases directStep_cases allM aTM nodeM acc st tx with h |
    ⟨f, t, fn, tn, d, hgf, hgt, heq⟩
  · rw [h]
    exact hP
  · rw [heq]
    rcases directCore_cases nodeM st f t fn tn d tx.amount with
      h2 | ⟨hd1, hd2, hcex, hfind, h2⟩ | h2
    · rw [h2]
      exact hP
    · rw [h2]
      intro l hl
      rcases List.mem_append.mp hl with h3 | h3
      · exact hP l h3
      · rw [List.mem_singleton.mp h3]
        constructor
        · rintro ⟨hA, hB⟩
          rw [hgf, Option.map_some'] at hA
          rw [hgt, Option.map_some'] at hB
          exact hcex (Or.inl ⟨Option.some.inj hA, Option.some.inj hB⟩)
        · rintro ⟨hA, hB⟩
          rw [hgf, Option.map_some'] at hA
          rw [hgt, Option.map_some'] at hB
          exact hcex (Or.inr ⟨Option.some.inj hA, Option.some.inj hB⟩)
    · rw [h2]
      intro l hl
      rcases mem_updateFirst _ _ _ l hl with h3 | ⟨x, hx, hlx⟩
      · exact hP l h3
      · rw [hlx]
        exact hP x hx

theorem connLinkStep_pres_nosame (allM : List (Str × AccountData))
    (links : List GraphLink) (e : Str × List Str)
    (hP : NoSameCat allM links) : NoSameCat allM (connLinkStep allM links e) := by
  rcases connLinkStep_cases allM links e with h | h
  · rw [h]
    exact hP
  · rw [h]
    rcases connCore_cases allM links ((splitOnDash e.1).getD 0 [])
        ((splitOnDash e.1).getD 1 []) (validIds allM e.2) with
      h2 | ⟨hg, hfind, h2⟩ | h2
    · rw [h2]
      exact hP
    · rw [h2]
      intro l hl
      rcases List.mem_append.mp hl with h3 | h3
      · exact hP l h3
      · rw [List.mem_singleton.mp h3]
        constructor
        · rintro ⟨hA, hB⟩
          refine hg ⟨?_, ?_, Or.inl ⟨hA, hB⟩⟩
          · rw [hA]; decide
          · rw [hB]; decide
        · rintro ⟨hA, hB⟩
          refine hg ⟨?_, ?_, Or.inr ⟨hA, hB⟩⟩
          · rw [hA]; decide
          · rw [hB]; decide
    · rw [h2]
      intro l hl
      rcases mem_updateFirst _ _ _ l hl with h3 | ⟨x, hx, hlx⟩
      · exact hP l h3
      · rw [hlx]
        exact hP x hx

/-- C7: no output edge, direct or connector-synthesized, joins two
cex-category records or two foundation-category records. -/
theorem C7 (data : List AccountData) (l : GraphLink)
    (hl : l ∈ (buildGraph data).links) :
    ¬ (catOf data l.source = some tyCex ∧ catOf data l.target = some tyCex) ∧
    ¬ (catOf data l.source = some tyFoundation ∧
       catOf data l.target = some tyFoundation) := by
  have hbase : NoSameCat (allMapOf data)
      (runDirect (allMapOf data) (buildAccountToMain data) (buildNodeMap data)).links := by
    have := foldl_preserves_mem
      (fun st e => e.2.transactions.foldl
        (directStep (allMapOf data) (buildAccountToMain data) (buildNodeMap data) e.2) st)
      (fun st : LinkState => NoSameCat (allMapOf data) st.links)
      (allMapOf data) ⟨[], []⟩
      (by intro l2 hl2; simp at hl2)
      (fun st entry _ hPs =>
        foldl_preserves_mem _
          (fun st2 : LinkState => NoSameCat (allMapOf data) st2.links)
          entry.2.transactions st hPs
          (fun st2 tx _ hP2 =>
            directStep_pres_nosame (allMapOf data) (buildAccountToMain data)
              (buildNodeMap data) entry.2 st2 tx hP2))
    exact this
  have h : NoSameCat (allMapOf data) (buildLinks data) :=
    foldl_preserves_mem (connLinkStep (allMapOf data)) (NoSameCat (allMapOf data))
      (buildConnectionMap (allMapOf data)
        (runConnector (allMapOf data) (buildAccountToMain data) (buildNodeMap data)))
      (runDirect (allMapOf data) (buildAccountToMain data) (buildNodeMap data)).links
      hbase
      (fun s e _ hPs => connLinkStep_pres_nosame (allMapOf data) s e hPs)
  exact h l hl

/-- Witness for C7 at a concrete Identified-to-Identified edge. -/
theorem C7_witness :
    ({ source := ("a").toList, target := ("b").toList,
       direction := Direction.SEND, connectors := none } : GraphLink) ∈
        (buildGraph dPlain).links ∧
    ¬ (catOf dPlain (("a").toList) = some tyCex ∧
       catOf dPlain (("b").toList) = some tyCex) ∧
    ¬ (catOf dPlain (("a").toList) = some tyFoundation ∧
       catOf dPlain (("b").toList) = some tyFoundation) :=
  ⟨by decide,
    C7 dPlain
      { source := ("a").toList, target := ("b").toList,
        direction := Direction.SEND, connectors := none }
      (by decide)⟩

/-! ### Claim C8 -/

/-- The unordered endpoint pair of a link. -/
def linkKey (l : GraphLink) : Str × Str := (l.source, l.target)

/-- Two endpoint pairs denote the same unordered pair. -/
def keyClash (k1 k2 : Str × Str) : Prop :=
  (k1.1 = k2.1 ∧ k1.2 = k2.2) ∨ (k1.1 = k2.2 ∧ k1.2 = k2.1)

/-- Two links cover the same unordered pair of endpoints. -/
def samePair (l1 l2 : GraphLink) : Prop :=
  keyClash (linkKey l1) (linkKey l2)

theorem pairwise_updateFirst_nsp (p : GraphLink → Bool)
    (f : GraphLink → GraphLink) (ls : List GraphLink)
    (hf : ∀ l, linkKey (f l) = linkKey l)
    (h : List.Pairwise (fun a b => ¬ samePair a b) ls) :
    List.Pairwise (fun a b => ¬ samePair a b) (updateFirst p f ls) := by
  have h2 : List.Pairwise (fun k1 k2 => ¬ keyClash k1 k2) (ls.map linkKey) :=
    List.pairwise_map.mpr h
  rw [← updateFirst_map_eq linkKey p f hf ls] at h2
  exact List.pairwise_map.mp h2

theorem pairwise_append_push (ls : List GraphLink) (x : GraphLink)
    (h : List.Pairwise (fun a b => ¬ samePair a b) ls)
    (hx : ∀ a ∈ ls, ¬ samePair a x) :
    List.Pairwise (fun a b => ¬ samePair a b) (ls ++ [x]) := by
  rw [List.pairwise_append]
  exact ⟨h, List.pairwise_singleton _ _,
    fun a ha b hb => (List.mem_singleton.mp hb) ▸ hx a ha⟩

theorem directStep_pres_pairwise (allM : List (Str × AccountData))
    (aTM : List (Str × Str)) (nodeM : List (Str × GraphNode))
    (acc : AccountData) (st : LinkState) (tx : Transaction)
    (hP : List.Pairwise (fun a b => ¬ samePair a b) st.links) :
    List.Pairwise (fun a b => ¬ samePair a b)
      (directStep allM aTM nodeM acc st tx).links := by
  rcases directStep_cases allM aTM nodeM acc st tx with h |
    ⟨f, t, fn, tn, d, hgf, hgt, heq⟩
  · rw [h]
    exact hP
  · rw [heq]
    rcases directCore_cases nodeM st f t fn tn d tx.amount with
      h2 | ⟨_, _, _, hfind, h2⟩ | h2
    · rw [h2]
      exact hP
    · rw [h2]
      refine pairwise_append_push st.links _ hP ?_
      intro a ha
      exact (findLink_eq_none_iff st.links f t).mp hfind a ha
    · rw [h2]
      exact pairwise_updateFirst_nsp _ _ st.links (fun l => rfl) hP

theorem connLinkStep_pres_pairwise (allM : List (Str × AccountData))
    (links : List GraphLink) (e : Str × List Str)
    (hP : List.Pairwise (fun a b => ¬ samePair a b) links) :
    List.Pairwise (fun a b => ¬ samePair a b) (connLinkStep allM links e) := by
  rcases connLinkStep_cases allM links e with h | h
  · rw [h]
    exact hP
  · rw [h]
    rcases connCore_cases allM links ((splitOnDash e.1).getD 0 [])
        ((splitOnDash e.1).getD 1 []) (validIds allM e.2) with
      h2 | ⟨_, hfind, h2⟩ | h2
    · rw [h2]
      exact hP
    · rw [h2]
      refine pairwise_append_push links _ hP ?_
      intro a ha
      exact (findLink_eq_none_iff links _ _).mp hfind a ha
    · rw [h2]
      exact pairwise_updateFirst_nsp _ _ links (fun l => rfl) hP

/-- C8: the output has at most one edge per unordered pair of ids, and
no node id appears twice. -/
theorem C8 (data : List AccountData) :
    List.Pairwise (fun l1 l2 => ¬ samePair l1 l2) (buildGraph data).links ∧
    ((buildGraph data).nodes.map GraphNode.id).Nodup := by
  constructor
  · have hbase : List.Pairwise (fun a b => ¬ samePair a b)
        (runDirect (allMapOf data) (buildAccountToMain data) (buildNodeMap data)).links := by
      exact foldl_preserves_mem
        (fun st e => e.2.transactions.foldl
          (directStep (allMapOf data) (buildAccountToMain data) (buildNodeMap data) e.2) st)
        (fun st : LinkState => List.Pairwise (fun a b => ¬ samePair a b) st.links)
        (allMapOf data) ⟨[], []⟩ List.Pairwise.nil
        (fun st entry _ hPs =>
          foldl_preserves_mem _
            (fun st2 : LinkState => List.Pairwise (fun a b => ¬ samePair a b) st2.links)
            entry.2.transactions st hPs
            (fun st2 tx _ hP2 =>
              directStep_pres_pairwise (allMapOf data) (buildAccountToMain data)
                (buildNodeMap data) entry.2 st2 tx hP2))
    exact foldl_preserves_mem (connLinkStep (allMapOf data))
      (fun links => List.Pairwise (fun a b => ¬ samePair a b) links)
      (buildConnectionMap (allMapOf data)
        (runConnector (allMapOf data) (buildAccountToMain data) (buildNodeMap data)))
      (runDirect (allMapOf data) (buildAccountToMain data) (buildNodeMap data)).links
      hbase
      (fun s e _ hPs => connLinkStep_pres_pairwise (allMapOf data) s e hPs)
  · show ((buildNodes data).map GraphNode.id).Nodup
    rw [buildNodes_map_id]
    exact nodeMap_keys_nodup data

/-! ### Claim C10 -/

theorem nodeMap_has_of_allMap_nondefi (data : List AccountData) (k : Str)
    (a : AccountData) (h : mapGet (allMapOf data) k = some a)
    (hd : lowerStr a.ty ≠ tyDefi) : mapHas (buildNodeMap data) k = true := by
  rw [allMapOf_eq_lastRecord] at h
  obtain ⟨hmem, hacc⟩ := lastRecord_mem _ _ _ h
  obtain ⟨r, hr, hra⟩ := List.mem_map.mp hmem
  refine (mapHas_buildNodeMap_iff data k).mpr ⟨r, hr, ?_, ?_⟩
  · rw [← sortAccount_account r, hra]
    exact hacc
  · rw [← sortAccount_ty r, hra]
    exact hd

/-- Both endpoints of every link are keys of the node map. -/
def EndpointsIn (nodeM : List (Str × GraphNode)) (links : List GraphLink) : Prop :=
  ∀ l ∈ links, mapHas nodeM l.source = true ∧ mapHas nodeM l.target = true

theorem directStep_pres_endpoints (data : List AccountData)
    (aTM : List (Str × Str)) (acc : AccountData) (st : LinkState)
    (tx : Transaction) (hP : EndpointsIn (buildNodeMap data) st.links) :
    EndpointsIn (buildNodeMap data)
      (directStep (allMapOf data) aTM (buildNodeMap data) acc st tx).links := by
  rcases directStep_cases (allMapOf data) aTM (buildNodeMap data) acc st tx with h |
    ⟨f, t, fn, tn, d, hgf, hgt, heq⟩
  · rw [h]
    exact hP
  · rw [heq]
    rcases directCore_cases (buildNodeMap data) st f t fn tn d tx.amount with
      h2 | ⟨hd1, hd2, _, _, h2⟩ | h2
    · rw [h2]
      exact hP
    · rw [h2]
      intro l hl
      rcases List.mem_append.mp hl with h3 | h3
      · exact hP l h3
      · rw [List.mem_singleton.mp h3]
        exact ⟨nodeMap_has_of_allMap_nondefi data f fn hgf hd1,
          nodeMap_has_of_allMap_nondefi data t tn hgt hd2⟩
    · rw [h2]
      intro l hl
      rcases mem_updateFirst _ _ _ l hl with h3 | ⟨x, hx, hlx⟩
      · exact hP l h3
      · rw [hlx]
        exact hP x hx

theorem connectorStep_values (allM : List (Str × AccountData))
    (aTM : List (Str × Str)) (nodeM : List (Str × GraphNode))
    (st : List (Str × List Str)) (tx : Transaction)
    (hP : ∀ e ∈ st, ∀ v ∈ e.2, mapHas nodeM v = true) :
    ∀ e ∈ connectorStep allM aTM nodeM st tx, ∀ v ∈ e.2,
      mapHas nodeM v = true := by
  intro e he
  simp only [connectorStep] at he
  split at he
  · exact hP e he
  · split at he
    · exact hP e he
    · have hst1 : ∀ e2 ∈ (match mapGet aTM tx.frId with
          | some fromMain =>
            if fromMain ≠ [] ∧ mapHas nodeM fromMain ∧
                ¬ truthyS (mapGet aTM tx.toId) then
              branchAdd allM st fromMain tx.toId tx.amount
            else st
          | none => st), ∀ v ∈ e2.2, mapHas nodeM v = true := by
        intro e2 he2
        split at he2
        · split at he2
          · rename_i hguard
            exact branchAdd_values allM st _ tx.toId tx.amount
              (fun v => mapHas nodeM v = true) hP hguard.2.1 e2 he2
          · exact hP e2 he2
        · exact hP e2 he2
      split at he
      · split at he
        · rename_i hguard
          exact branchAdd_values allM _ _ tx.frId tx.amount
            (fun v => mapHas nodeM v = true) hst1 hguard.2.1 e he
        · exact hst1 e he
      · exact hst1 e he

theorem runConnector_values (allM : List (Str × AccountData))
    (aTM : List (Str × Str)) (nodeM : List (Str × GraphNode)) :
    ∀ e ∈ runConnector allM aTM nodeM, ∀ v ∈ e.2, mapHas nodeM v = true := by
  unfold runConnector
  exact foldl_preserves_mem _
    (fun st => ∀ e ∈ st, ∀ v ∈ e.2, mapHas nodeM v = true) allM []
    (by intro e he; simp at he)
    (fun st entry _ hP =>
      foldl_preserves_mem _
        (fun st2 => ∀ e ∈ st2, ∀ v ∈ e.2, mapHas nodeM v = true)
        entry.2.transactions st hP
        (fun st2 tx _ hP2 => connectorStep_values allM aTM nodeM st2 tx hP2))

/-- A connection-map key is two node-map keys joined by a dash. -/
def KeyProp (nodeM : List (Str × GraphNode)) (k : Str) : Prop :=
  ∃ x y, k = x ++ dashChar :: y ∧ mapHas nodeM x = true ∧ mapHas nodeM y = true

theorem cmPush_key (cm : List (Str × List Str)) (k v : Str) :
    ∀ e ∈ cmPush cm k v, e ∈ cm ∨ e.1 = k := by
  intro e he
  unfold cmPush at he
  split at he <;>
    · rcases mem_entries_mapSet _ _ _ _ he with h | h
      · exact Or.inl h
      · exact Or.inr (by rw [h])

theorem pairKey_keyProp (nodeM : List (Str × GraphNode)) (a b : Str)
    (ha : mapHas nodeM a = true) (hb : mapHas nodeM b = true) :
    KeyProp nodeM (pairKey a b) := by
  unfold pairKey
  split
  · exact ⟨b, a, rfl, hb, ha⟩
  · exact ⟨a, b, rfl, ha, hb⟩

theorem addPairs_keyProp (nodeM : List (Str × GraphNode)) (ext : Str) :
    ∀ (mains : List Str) (cm : List (Str × List Str)),
      (∀ v ∈ mains, mapHas nodeM v = true) →
      (∀ e ∈ cm, KeyProp nodeM e.1) →
      ∀ e ∈ addPairs ext cm mains, KeyProp nodeM e.1
  | [], cm, _, hcm => by simpa [addPairs] using hcm
  | m :: rest, cm, hv, hcm => by
    simp only [addPairs]
    refine addPairs_keyProp nodeM ext rest _
      (fun v hvr => hv v (List.mem_cons_of_mem _ hvr)) ?_
    refine foldl_preserves_mem _ (fun cm2 => ∀ e ∈ cm2, KeyProp nodeM e.1)
      rest cm hcm ?_
    intro cm2 m2 hm2 hPs e he
    rcases cmPush_key cm2 (pairKey m m2) ext e he with h | h
    · exact hPs e h
    · rw [h]
      exact pairKey_keyProp nodeM m m2 (hv m (List.mem_cons_self _ _))
        (hv m2 (List.mem_cons_of_mem _ hm2))

theorem buildConnectionMap_keyProp (allM : List (Str × AccountData))
    (nodeM : List (Str × GraphNode)) (cnm : List (Str × List Str))
    (hcnm : ∀ e ∈ cnm, ∀ v ∈ e.2, mapHas nodeM v = true) :
    ∀ e ∈ buildConnectionMap allM cnm, KeyProp nodeM e.1 := by
  unfold buildConnectionMap
  refine foldl_preserves_mem _
    (fun cm : List (Str × List Str) => ∀ e ∈ cm, KeyProp nodeM e.1)
    cnm [] (by intro e he; simp at he) ?_
  intro cm entry hmem hP
  split
  · exact hP
  · split
    · split
      · exact hP
      · exact addPairs_keyProp nodeM entry.1 entry.2 cm (hcnm entry hmem) hP
    · exact addPairs_keyProp nodeM entry.1 entry.2 cm (hcnm entry hmem) hP

theorem connLinkStep_pres_endpoints (data : List AccountData)
    (links : List GraphLink) (e : Str × List Str)
    (hkey : KeyProp (buildNodeMap data) e.1)
    (hdf : ∀ k, mapHas (buildNodeMap data) k = true → dashChar ∉ k)
    (hP : EndpointsIn (buildNodeMap data) links) :
    EndpointsIn (buildNodeMap data) (connLinkStep (allMapOf data) links e) := by
  rcases connLinkStep_cases (allMapOf data) links e with h | h
  · rw [h]
    exact hP
  · rw [h]
    obtain ⟨x, y, hk, hx, hy⟩ := hkey
    have hsplit : splitOnDash e.1 = [x, y] := by
      rw [hk, splitOnDash_append x y (hdf x hx), splitOnDash_no_dash y (hdf y hy)]
    rcases connCore_cases (allMapOf data) links ((splitOnDash e.1).getD 0 [])
        ((splitOnDash e.1).getD 1 []) (validIds (allMapOf data) e.2) with
      h2 | ⟨_, _, h2⟩ | h2
    · rw [h2]
      exact hP
    · rw [h2]
      intro l hl
      rcases List.mem_append.mp hl with h3 | h3
      · exact hP l h3
      · rw [List.mem_singleton.mp h3]
        rw [hsplit]
        exact ⟨hx, hy⟩
    · rw [h2]
      intro l hl
      rcases mem_updateFirst _ _ _ l hl with h3 | ⟨x2, hx2, hlx⟩
      · exact hP l h3
      · rw [hlx]
        exact hP x2 hx2

/-- C10: when account ids contain no dash (they are opaque fixed-format
hex strings), every output edge's source and target are ids of nodes
present in the output node list — no DeFiProtocol id and no untracked
external id ever appears as an endpoint. -/
theorem C10 (data : List AccountData)
    (hdash : ∀ acc ∈ data, dashChar ∉ acc.account) :
    ∀ l ∈ (buildGraph data).links,
      l.source ∈ (buildGraph data).nodes.map GraphNode.id ∧
      l.target ∈ (buildGraph data).nodes.map GraphNode.id := by
  have hdf : ∀ k, mapHas (buildNodeMap data) k = true → dashChar ∉ k := by
    intro k hk
    obtain ⟨a, ha, hacc, _⟩ := (mapHas_buildNodeMap_iff data k).mp hk
    rw [← hacc]
    exact hdash a ha
  have hbase : EndpointsIn (buildNodeMap data)
      (runDirect (allMapOf data) (buildAccountToMain data) (buildNodeMap data)).links := by
    exact foldl_preserves_mem
      (fun (st : LinkState) (e : Str × AccountData) => e.2.transactions.foldl
        (directStep (allMapOf data) (buildAccountToMain data) (buildNodeMap data) e.2) st)
      (fun st : LinkState => EndpointsIn (buildNodeMap data) st.links)
      (allMapOf data) ⟨[], []⟩
      (by intro l hl; simp at hl)
      (fun st entry _ hPs =>
        foldl_preserves_mem _
          (fun st2 : LinkState => EndpointsIn (buildNodeMap data) st2.links)
          entry.2.transactions st hPs
          (fun st2 tx _ hP2 =>
            directStep_pres_endpoints data (buildAccountToMain data) entry.2 st2 tx hP2))
  have hcm : ∀ e ∈ buildConnectionMap (allMapOf data)
      (runConnector (allMapOf data) (buildAccountToMain data) (buildNodeMap data)),
      KeyProp (buildNodeMap data) e.1 :=
    buildConnectionMap_keyProp (allMapOf data) (buildNodeMap data) _
      (runConnector_values (allMapOf data) (buildAccountToMain data) (buildNodeMap data))
  have h : EndpointsIn (buildNodeMap data) (buildLinks data) :=
    foldl_preserves_mem (connLinkStep (allMapOf data))
      (EndpointsIn (buildNodeMap data))
      (buildConnectionMap (allMapOf data)
        (runConnector (allMapOf data) (buildAccountToMain data) (buildNodeMap data)))
      (runDirect (allMapOf data) (buildAccountToMain data) (buildNodeMap data)).links
      hbase
      (fun s e he hPs => connLinkStep_pres_endpoints data s e (hcm e he) hdf hPs)
  intro l hl
  obtain ⟨h1, h2⟩ := h l hl
  rw [mapHas_iff_mem_keys] at h1 h2
  have hid : (buildNodes data).map GraphNode.id = mapKeys (buildNodeMap data) :=
    buildNodes_map_id data
  constructor
  · show l.source ∈ (buildNodes data).map GraphNode.id
    rw [hid]
    exact h1
  · show l.target ∈ (buildNodes data).map GraphNode.id
    rw [hid]
    exact h2

/-- Witness for C10 at a concrete Identified-to-Identified edge. -/
theorem C10_witness :
    (∀ acc ∈ dPlain, dashChar ∉ acc.account) ∧
    ({ source := ("a").toList, target := ("b").toList,
       direction := Direction.SEND, connectors := none } : GraphLink) ∈
      (buildGraph dPlain).links ∧
    (("a").toList ∈ (buildGraph dPlain).nodes.map GraphNode.id ∧
     ("b").toList ∈ (buildGraph dPlain).nodes.map GraphNode.id) :=
  ⟨by decide, by decide,
    C10 dPlain (by decide)
      { source := ("a").toList, target := ("b").toList,
        direction := Direction.SEND, connectors := none }
      (by decide)⟩
